import Mathlib

/-!
Verification of the local transcript-to-field-update extraction engine
(`src/parser.ts`). The TypeScript source is shallowly embedded: character
indices are `Nat`, JS strings are `String`/`List Char`, JS numbers used as
confidences and numeric field values are `ℚ`, and the regex-based matchers
are implemented directly with the backtracking semantics of the concrete
patterns that appear in the source. The external natural-language date
parser (`chrono`) is an opaque collaborator and is passed in as an oracle.
-/

namespace RapSheet

/-! ### Span tracker (`parser.ts` lines 47-76) -/

/-- `Span` from parser.ts; the source's field `end` is a Lean keyword, so it
is written `«end»`. -/
structure Span where
  start : Nat
  «end» : Nat
deriving DecidableEq, Repr

/-- `spansOverlap` from parser.ts: `a.start < b.end && b.start < a.end`. -/
def spansOverlap (a b : Span) : Bool :=
  decide (a.start < b.«end») && decide (b.start < a.«end»)

/-- Stable insertion into a list sorted by `start` ascending; an element is
placed after every element with a strictly smaller `start` and before equal
starts that were originally later, which is exactly what the stable JS
`Array.prototype.sort` with comparator `(a, b) => a.start - b.start` does. -/
def insSpan (x : Span) : List Span → List Span
  | [] => [x]
  | y :: ys => if y.start < x.start then y :: insSpan x ys else x :: y :: ys

/-- Stable sort by `start`, modelling `spans.slice().sort((a, b) => a.start - b.start)`. -/
def sortSpans : List Span → List Span
  | [] => []
  | x :: xs => insSpan x (sortSpans xs)

/-- The fold of `mergeSpans` (parser.ts lines 55-65): `cur` is the span
being grown; a next span whose start is `≤ cur.end` is folded into `cur`. -/
def mergeLoop (cur : Span) : List Span → List Span
  | [] => [cur]
  | nx :: rest =>
    if nx.start ≤ cur.«end» then mergeLoop ⟨cur.start, max cur.«end» nx.«end»⟩ rest
    else cur :: mergeLoop nx rest

/-- `mergeSpans` from parser.ts lines 51-67. -/
def mergeSpans (spans : List Span) : List Span :=
  match sortSpans spans with
  | [] => []
  | s :: rest => mergeLoop s rest

/-- `isSpanFree` from parser.ts lines 68-72. -/
def isSpanFree (used : List Span) (span : Span) : Bool :=
  (mergeSpans used).all (fun u => !spansOverlap u span)

/-- A span `s` is contained in a span `o` (half-open ranges). -/
def spanLe (s o : Span) : Prop := o.start ≤ s.start ∧ s.«end» ≤ o.«end»

/-! #### Lemmas about `sortSpans` -/

theorem mem_insSpan {x y : Span} {l : List Span} :
    y ∈ insSpan x l ↔ y = x ∨ y ∈ l := by
  induction l with
  | nil => simp [insSpan]
  | cons z zs ih =>
    by_cases h : z.start < x.start
    · rw [insSpan, if_pos h, List.mem_cons, ih, List.mem_cons]
      tauto
    · rw [insSpan, if_neg h, List.mem_cons, List.mem_cons]

theorem mem_sortSpans {y : Span} {l : List Span} :
    y ∈ sortSpans l ↔ y ∈ l := by
  induction l with
  | nil => simp [sortSpans]
  | cons x xs ih =>
    simp only [sortSpans, mem_insSpan, List.mem_cons, ih]

theorem insSpan_sorted {x : Span} {l : List Span}
    (hl : l.Pairwise (fun a b => a.start ≤ b.start)) :
    (insSpan x l).Pairwise (fun a b => a.start ≤ b.start) := by
  induction l with
  | nil => simp [insSpan]
  | cons y ys ih =>
    have hy : ∀ b ∈ ys, y.start ≤ b.start := (List.pairwise_cons.mp hl).1
    have hys : ys.Pairwise (fun a b => a.start ≤ b.start) := (List.pairwise_cons.mp hl).2
    by_cases h : y.start < x.start
    · rw [insSpan, if_pos h]
      refine List.Pairwise.cons ?_ (ih hys)
      intro b hb
      rcases mem_insSpan.mp hb with rfl | hb
      · exact Nat.le_of_lt h
      · exact hy b hb
    · rw [insSpan, if_neg h]
      refine List.Pairwise.cons ?_ hl
      intro b hb
      rcases List.mem_cons.mp hb with rfl | hb
      · exact Nat.le_of_not_lt h
      · exact Nat.le_trans (Nat.le_of_not_lt h) (hy b hb)

theorem sortSpans_sorted (l : List Span) :
    (sortSpans l).Pairwise (fun a b => a.start ≤ b.start) := by
  induction l with
  | nil => exact List.Pairwise.nil
  | cons x xs ih => exact insSpan_sorted ih

/-! #### Lemmas about `mergeLoop` -/

theorem mergeLoop_ne_nil (cur : Span) (l : List Span) : mergeLoop cur l ≠ [] := by
  induction l generalizing cur with
  | nil => simp [mergeLoop]
  | cons nx rest ih =>
    by_cases h : nx.start ≤ cur.«end»
    · simpa [mergeLoop, h] using ih _
    · simp [mergeLoop, h]

theorem mergeLoop_start_ge (cur : Span) (l : List Span)
    (hsort : l.Pairwise (fun a b => a.start ≤ b.start))
    (hmin : ∀ s ∈ l, cur.start ≤ s.start) :
    ∀ o ∈ mergeLoop cur l, cur.start ≤ o.start := by
  induction l generalizing cur with
  | nil =>
    intro o ho
    simp only [mergeLoop, List.mem_singleton] at ho
    subst ho; exact Nat.le_refl _
  | cons nx rest ih =>
    intro o ho
    have hnx : ∀ s ∈ rest, nx.start ≤ s.start := (List.pairwise_cons.mp hsort).1
    have hrest : rest.Pairwise (fun a b => a.start ≤ b.start) :=
      (List.pairwise_cons.mp hsort).2
    by_cases h : nx.start ≤ cur.«end»
    · simp only [mergeLoop, if_pos h] at ho
      exact ih ⟨cur.start, max cur.«end» nx.«end»⟩ hrest
        (fun s hs => Nat.le_trans (hmin nx (List.mem_cons_self _ _)) (hnx s hs)) o ho
    · simp only [mergeLoop, if_neg h, List.mem_cons] at ho
      rcases ho with rfl | ho
      · exact Nat.le_refl _
      · exact Nat.le_trans (hmin nx (List.mem_cons_self _ _)) (ih nx hrest hnx o ho)

theorem mergeLoop_gap (cur : Span) (l : List Span)
    (hsort : l.Pairwise (fun a b => a.start ≤ b.start))
    (hmin : ∀ s ∈ l, cur.start ≤ s.start) :
    (mergeLoop cur l).Pairwise (fun a b => a.«end» < b.start) := by
  induction l generalizing cur with
  | nil => simp [mergeLoop]
  | cons nx rest ih =>
    have hnx : ∀ s ∈ rest, nx.start ≤ s.start := (List.pairwise_cons.mp hsort).1
    have hrest : rest.Pairwise (fun a b => a.start ≤ b.start) :=
      (List.pairwise_cons.mp hsort).2
    by_cases h : nx.start ≤ cur.«end»
    · simp only [mergeLoop, if_pos h]
      exact ih ⟨cur.start, max cur.«end» nx.«end»⟩ hrest
        (fun s hs => Nat.le_trans (hmin nx (List.mem_cons_self _ _)) (hnx s hs))
    · simp only [mergeLoop, if_neg h]
      refine List.Pairwise.cons ?_ (ih nx hrest hnx)
      intro o ho
      exact Nat.lt_of_lt_of_le (Nat.lt_of_not_le h) (mergeLoop_start_ge nx rest hrest hnx o ho)

theorem mergeLoop_sorted (cur : Span) (l : List Span)
    (hsort : l.Pairwise (fun a b => a.start ≤ b.start))
    (hmin : ∀ s ∈ l, cur.start ≤ s.start) :
    (mergeLoop cur l).Pairwise (fun a b => a.start ≤ b.start) := by
  induction l generalizing cur with
  | nil => simp [mergeLoop]
  | cons nx rest ih =>
    have hnx : ∀ s ∈ rest, nx.start ≤ s.start := (List.pairwise_cons.mp hsort).1
    have hrest : rest.Pairwise (fun a b => a.start ≤ b.start) :=
      (List.pairwise_cons.mp hsort).2
    by_cases h : nx.start ≤ cur.«end»
    · simp only [mergeLoop, if_pos h]
      exact ih ⟨cur.start, max cur.«end» nx.«end»⟩ hrest
        (fun s hs => Nat.le_trans (hmin nx (List.mem_cons_self _ _)) (hnx s hs))
    · simp only [mergeLoop, if_neg h]
      refine List.Pairwise.cons ?_ (ih nx hrest hnx)
      intro o ho
      exact Nat.le_trans (hmin nx (List.mem_cons_self _ _))
        (mergeLoop_start_ge nx rest hrest hnx o ho)

theorem mergeLoop_covers (cur : Span) (l : List Span)
    (hsort : l.Pairwise (fun a b => a.start ≤ b.start))
    (hmin : ∀ s ∈ l, cur.start ≤ s.start) :
    (∃ o ∈ mergeLoop cur l, spanLe cur o) ∧
    ∀ s ∈ l, ∃ o ∈ mergeLoop cur l, spanLe s o := by
  induction l generalizing cur with
  | nil =>
    refine ⟨⟨cur, ?_, Nat.le_refl _, Nat.le_refl _⟩, by simp⟩
    simp [mergeLoop]
  | cons nx rest ih =>
    have hnx : ∀ s ∈ rest, nx.start ≤ s.start := (List.pairwise_cons.mp hsort).1
    have hrest : rest.Pairwise (fun a b => a.start ≤ b.start) :=
      (List.pairwise_cons.mp hsort).2
    by_cases h : nx.start ≤ cur.«end»
    · simp only [mergeLoop, if_pos h]
      set cur' : Span := ⟨cur.start, max cur.«end» nx.«end»⟩ with hcur'
      have hmin' : ∀ s ∈ rest, cur'.start ≤ s.start :=
        fun s hs => Nat.le_trans (hmin nx (List.mem_cons_self _ _)) (hnx s hs)
      obtain ⟨⟨o, ho, hole⟩, hcov⟩ := ih cur' hrest hmin'
      refine ⟨⟨o, ho, hole.1, Nat.le_trans (Nat.le_max_left _ _) hole.2⟩, ?_⟩
      intro s hs
      rcases List.mem_cons.mp hs with rfl | hs
      · exact ⟨o, ho, Nat.le_trans hole.1 (hmin s (List.mem_cons_self _ _)),
          Nat.le_trans (Nat.le_max_right _ _) hole.2⟩
      · exact hcov s hs
    · simp only [mergeLoop, if_neg h]
      obtain ⟨⟨o, ho, hole⟩, hcov⟩ := ih nx hrest hnx
      refine ⟨⟨cur, List.mem_cons_self _ _, Nat.le_refl _, Nat.le_refl _⟩, ?_⟩
      intro s hs
      rcases List.mem_cons.mp hs with rfl | hs
      · exact ⟨o, List.mem_cons_of_mem _ ho, hole⟩
      · obtain ⟨o', ho', hle⟩ := hcov s hs
        exact ⟨o', List.mem_cons_of_mem _ ho', hle⟩

/-- Merged spans are pairwise non-overlapping, sorted by start, and cover
every input span. -/
theorem mergeSpans_spec (spans : List Span) :
    (mergeSpans spans).Pairwise (fun a b => spansOverlap a b = false) ∧
    (mergeSpans spans).Pairwise (fun a b => a.start ≤ b.start) ∧
    ∀ s ∈ spans, ∃ o ∈ mergeSpans spans, spanLe s o := by
  have hgap : (mergeSpans spans).Pairwise (fun a b => a.«end» < b.start) := by
    unfold mergeSpans
    rcases hs : sortSpans spans with _ | ⟨x, xs⟩
    · exact List.Pairwise.nil
    · have := sortSpans_sorted spans
      rw [hs] at this
      exact mergeLoop_gap x xs (List.pairwise_cons.mp this).2 (List.pairwise_cons.mp this).1
  refine ⟨?_, ?_, ?_⟩
  · refine hgap.imp ?_
    intro a b hab
    simp only [spansOverlap, Bool.and_eq_false_iff, decide_eq_false_iff_not, Nat.not_lt]
    exact Or.inr (Nat.le_of_lt hab)
  · unfold mergeSpans
    rcases hs : sortSpans spans with _ | ⟨x, xs⟩
    · exact List.Pairwise.nil
    · have := sortSpans_sorted spans
      rw [hs] at this
      exact mergeLoop_sorted x xs (List.pairwise_cons.mp this).2 (List.pairwise_cons.mp this).1
  · intro s hsmem
    have hmem : s ∈ sortSpans spans := mem_sortSpans.mpr hsmem
    unfold mergeSpans
    rcases hs : sortSpans spans with _ | ⟨x, xs⟩
    · rw [hs] at hmem; cases hmem
    · have hsorted := sortSpans_sorted spans
      rw [hs] at hsorted hmem
      obtain ⟨hcur, hcov⟩ := mergeLoop_covers x xs
        (List.pairwise_cons.mp hsorted).2 (List.pairwise_cons.mp hsorted).1
      rcases List.mem_cons.mp hmem with rfl | hmem
      · exact hcur
      · exact hcov s hmem

/-! ### Data model (`parser.ts` lines 8-41) -/

/-- `FieldType` from parser.ts. -/
inductive FieldType where
  | text | number | date | time | datetime | radio | select | checkbox
  | switch | email | phone
deriving DecidableEq, Repr

/-- `Option` from parser.ts, renamed because `Option` is Lean's option type.
The TS optional `synonyms` array is modelled as a plain list (absent = `[]`). -/
structure FieldOption where
  id : String
  label : String
  synonyms : List String := []
deriving DecidableEq, Repr

/-- `Field` from parser.ts. The `required`/`pattern`/`min`/`max` members are
never read by the parser and are omitted. -/
structure Field where
  id : String
  label : String
  type : FieldType
  options : List FieldOption := []
  synonyms : List String := []
deriving DecidableEq, Repr

/-- The dynamic JS values stored in `FieldUpdate.value`: strings, numbers,
booleans and arrays of option-id strings. -/
inductive JValue where
  | s (v : String)
  | n (v : ℚ)
  | b (v : Bool)
  | arr (v : List String)
deriving DecidableEq, Repr

/-- `FieldUpdate` from parser.ts; `confidence` is a JS number in the source,
modelled as `ℚ`. `evidence` is always set by the parser's pushes. -/
structure FieldUpdate where
  fieldId : String
  value : JValue
  confidence : ℚ
  evidence : String
deriving DecidableEq, Repr

/-! ### Final dedupe (`parser.ts` lines 399-405)

The JS `Map` keyed by `fieldId` preserves first-insertion order of keys and
`map.set` on an existing key replaces the value in place, so it is modelled
as an association list (`List FieldUpdate` with unique `fieldId`s). -/

/-- `map.set(u.fieldId, u)` when the key is already present: replace the
first entry with that key, keeping its position. -/
def setKey : List FieldUpdate → FieldUpdate → List FieldUpdate
  | [], u => [u]
  | v :: vs, u => if v.fieldId == u.fieldId then u :: vs else v :: setKey vs u

/-- One iteration of the dedupe loop (parser.ts lines 401-404). -/
def dedupeStep (m : List FieldUpdate) (u : FieldUpdate) : List FieldUpdate :=
  match m.find? (fun v => v.fieldId == u.fieldId) with
  | none => m ++ [u]
  | some v => if v.confidence < u.confidence then setKey m u else m

/-- The final dedupe: pick best confidence per fieldId (parser.ts 399-405).
`Array.from(map.values())` returns values in first-insertion key order. -/
def dedupe (us : List FieldUpdate) : List FieldUpdate := us.foldl dedupeStep []

/-- One step of collecting keys in order of first appearance. -/
def keyStep (ks : List String) (u : FieldUpdate) : List String :=
  if u.fieldId ∈ ks then ks else ks ++ [u.fieldId]

/-- Key list in order of first appearance. -/
def firstKeys (us : List FieldUpdate) : List String := us.foldl keyStep []

/-- One step of the reference best-candidate fold: keep the current
candidate unless a strictly higher confidence shows up. -/
def bestStep (acc : Option FieldUpdate) (u : FieldUpdate) : Option FieldUpdate :=
  match acc with
  | none => some u
  | some v => if v.confidence < u.confidence then some u else acc

/-- Modelled from the spec: "group by field id and keep only the
highest-confidence candidate per field (ties broken by keeping the
earliest-produced one)". -/
def specBestOf : List FieldUpdate → Option FieldUpdate := List.foldl bestStep none

/-- Lookup of the map entry for a field id. -/
def lookupU (us : List FieldUpdate) (id : String) : Option FieldUpdate :=
  us.find? (fun u => u.fieldId == id)

/-! #### Lemmas about `setKey` and `dedupeStep` -/

theorem lookupU_nil (id : String) : lookupU [] id = none := rfl

theorem lookupU_cons (w : FieldUpdate) (ws : List FieldUpdate) (id : String) :
    lookupU (w :: ws) id =
      if w.fieldId == id then some w else lookupU ws id := by
  by_cases h : w.fieldId == id
  · rw [if_pos h]
    exact List.find?_cons_of_pos _ h
  · rw [if_neg h]
    exact List.find?_cons_of_neg _ h

theorem setKey_cons_eq {w : FieldUpdate} (ws : List FieldUpdate) {u : FieldUpdate}
    (h : (w.fieldId == u.fieldId) = true) : setKey (w :: ws) u = u :: ws := by
  rw [setKey, if_pos h]

theorem setKey_cons_ne {w : FieldUpdate} (ws : List FieldUpdate) {u : FieldUpdate}
    (h : (w.fieldId == u.fieldId) = false) :
    setKey (w :: ws) u = w :: setKey ws u := by
  rw [setKey, if_neg (by simp [h])]

theorem mem_setKey {v u : FieldUpdate} {m : List FieldUpdate}
    (h : v ∈ setKey m u) : v = u ∨ v ∈ m := by
  induction m with
  | nil => simpa [setKey] using h
  | cons w ws ih =>
    by_cases hw : (w.fieldId == u.fieldId) = true
    · rw [setKey_cons_eq ws hw] at h
      rcases List.mem_cons.mp h with rfl | h
      · exact Or.inl rfl
      · exact Or.inr (List.mem_cons_of_mem _ h)
    · rw [setKey_cons_ne ws (by simpa using hw)] at h
      rcases List.mem_cons.mp h with rfl | h
      · exact Or.inr (List.mem_cons_self _ _)
      · rcases ih h with rfl | h
        · exact Or.inl rfl
        · exact Or.inr (List.mem_cons_of_mem _ h)

theorem lookupU_setKey_ne {u : FieldUpdate} {m : List FieldUpdate} {id : String}
    (h : u.fieldId ≠ id) : lookupU (setKey m u) id = lookupU m id := by
  induction m with
  | nil =>
    show lookupU [u] id = lookupU [] id
    rw [lookupU_cons, if_neg (by simpa using h), lookupU_nil]
  | cons w ws ih =>
    by_cases hw : (w.fieldId == u.fieldId) = true
    · rw [setKey_cons_eq ws hw, lookupU_cons, lookupU_cons]
      have hwu : w.fieldId = u.fieldId := by simpa using hw
      rw [if_neg (by simpa using h), if_neg (by simp [hwu, h])]
    · rw [setKey_cons_ne ws (by simpa using hw), lookupU_cons, lookupU_cons, ih]

theorem lookupU_setKey_eqkey {u v : FieldUpdate} {m : List FieldUpdate}
    (h : lookupU m u.fieldId = some v) :
    lookupU (setKey m u) u.fieldId = some u := by
  induction m with
  | nil => simp [lookupU_nil] at h
  | cons w ws ih =>
    by_cases hw : (w.fieldId == u.fieldId) = true
    · rw [setKey_cons_eq ws hw, lookupU_cons, if_pos (by simp)]
    · rw [setKey_cons_ne ws (by simpa using hw), lookupU_cons, if_neg (by simp [hw])]
      rw [lookupU_cons, if_neg (by simp [hw])] at h
      exact ih h

theorem map_setKey {u v : FieldUpdate} {m : List FieldUpdate}
    (h : lookupU m u.fieldId = some v) :
    (setKey m u).map (fun w => w.fieldId) = m.map (fun w => w.fieldId) := by
  induction m with
  | nil => simp [lookupU_nil] at h
  | cons w ws ih =>
    by_cases hw : (w.fieldId == u.fieldId) = true
    · rw [setKey_cons_eq ws hw]
      have hwu : u.fieldId = w.fieldId := (beq_iff_eq.mp hw).symm
      simp [hwu]
    · rw [setKey_cons_ne ws (by simpa using hw)]
      rw [lookupU_cons, if_neg (by simp [hw])] at h
      simp [ih h]

theorem dedupeStep_of_none {m : List FieldUpdate} {u : FieldUpdate}
    (h : lookupU m u.fieldId = none) : dedupeStep m u = m ++ [u] := by
  unfold dedupeStep
  rw [show m.find? (fun v => v.fieldId == u.fieldId) = none from h]

theorem dedupeStep_of_some {m : List FieldUpdate} {u v : FieldUpdate}
    (h : lookupU m u.fieldId = some v) :
    dedupeStep m u = if v.confidence < u.confidence then setKey m u else m := by
  unfold dedupeStep
  rw [show m.find? (fun w => w.fieldId == u.fieldId) = some v from h]

theorem mem_dedupeStep {v u : FieldUpdate} {m : List FieldUpdate}
    (h : v ∈ dedupeStep m u) : v = u ∨ v ∈ m := by
  rcases hf : lookupU m u.fieldId with _ | w
  · rw [dedupeStep_of_none hf] at h
    rcases List.mem_append.mp h with h | h
    · exact Or.inr h
    · exact Or.inl (by simpa using h)
  · rw [dedupeStep_of_some hf] at h
    by_cases hc : w.confidence < u.confidence
    · rw [if_pos hc] at h
      exact mem_setKey h
    · rw [if_neg hc] at h
      exact Or.inr h

theorem lookupU_append_one (m : List FieldUpdate) (u : FieldUpdate) (id : String) :
    lookupU (m ++ [u]) id =
      match lookupU m id with
      | some v => some v
      | none => if u.fieldId == id then some u else none := by
  induction m with
  | nil =>
    rw [List.nil_append, lookupU_nil, lookupU_cons, lookupU_nil]
  | cons w ws ih =>
    rw [List.cons_append, lookupU_cons, lookupU_cons]
    by_cases hw : (w.fieldId == id) = true
    · rw [if_pos hw, if_pos hw]
    · rw [if_neg (by simp [hw]), if_neg (by simp [hw]), ih]

theorem lookupU_dedupeStep (m : List FieldUpdate) (u : FieldUpdate) (id : String) :
    lookupU (dedupeStep m u) id =
      if u.fieldId = id then bestStep (lookupU m id) u else lookupU m id := by
  rcases hf : lookupU m u.fieldId with _ | w
  · rw [dedupeStep_of_none hf, lookupU_append_one]
    by_cases h : u.fieldId = id
    · subst h
      rw [hf, if_pos rfl]
      simp [bestStep]
    · rw [if_neg h]
      rcases hl : lookupU m id with _ | v
      · simp [h]
      · rfl
  · rw [dedupeStep_of_some hf]
    by_cases h : u.fieldId = id
    · subst h
      by_cases hc : w.confidence < u.confidence
      · rw [if_pos hc, if_pos rfl, lookupU_setKey_eqkey hf, hf]
        simp [bestStep, hc]
      · rw [if_neg hc, if_pos rfl, hf]
        simp [bestStep, hc]
    · by_cases hc : w.confidence < u.confidence
      · rw [if_pos hc, if_neg h, lookupU_setKey_ne h]
      · rw [if_neg hc, if_neg h]

theorem lookupU_eq_none_iff {m : List FieldUpdate} {id : String} :
    lookupU m id = none ↔ id ∉ m.map (fun w => w.fieldId) := by
  constructor
  · intro h hmem
    obtain ⟨v, hv, hveq⟩ := List.mem_map.mp hmem
    have := List.find?_eq_none.mp h v hv
    simp [hveq] at this
  · intro h
    apply List.find?_eq_none.mpr
    intro v hv
    intro hbeq
    exact h (List.mem_map.mpr ⟨v, hv, by simpa using hbeq⟩)

theorem keys_dedupeStep (m : List FieldUpdate) (u : FieldUpdate) :
    (dedupeStep m u).map (fun w => w.fieldId) =
      keyStep (m.map (fun w => w.fieldId)) u := by
  unfold keyStep
  rcases hf : lookupU m u.fieldId with _ | w
  · rw [dedupeStep_of_none hf, if_neg (lookupU_eq_none_iff.mp hf)]
    simp
  · have hw : w ∈ m := List.mem_of_find?_eq_some hf
    have hweq : w.fieldId = u.fieldId := by
      have := List.find?_some hf
      simpa using this
    have hmem : u.fieldId ∈ m.map (fun v => v.fieldId) :=
      List.mem_map.mpr ⟨w, hw, hweq⟩
    rw [dedupeStep_of_some hf, if_pos hmem]
    by_cases hc : w.confidence < u.confidence
    · rw [if_pos hc]
      exact map_setKey hf
    · rw [if_neg hc]

/-! #### The dedupe characterisation -/

theorem foldl_dedupe_lookup (us : List FieldUpdate) :
    ∀ (m : List FieldUpdate) (id : String),
      lookupU (us.foldl dedupeStep m) id =
        List.foldl bestStep (lookupU m id)
          (us.filter (fun u => u.fieldId == id)) := by
  induction us with
  | nil => intro m id; rfl
  | cons u rest ih =>
    intro m id
    by_cases h : u.fieldId = id
    · have hp : (u.fieldId == id) = true := by simpa using h
      simp only [List.foldl_cons, List.filter_cons, hp, if_pos, List.foldl_cons]
      rw [ih, lookupU_dedupeStep, if_pos h]
    · have hp : (u.fieldId == id) = false := by simpa using h
      simp only [List.foldl_cons, List.filter_cons, hp, Bool.false_eq_true,
        if_false]
      rw [ih, lookupU_dedupeStep, if_neg h]

theorem foldl_dedupe_keys (us : List FieldUpdate) :
    ∀ m : List FieldUpdate,
      (us.foldl dedupeStep m).map (fun w => w.fieldId) =
        List.foldl keyStep (m.map (fun w => w.fieldId)) us := by
  induction us with
  | nil => intro m; rfl
  | cons u rest ih =>
    intro m
    simp only [List.foldl_cons]
    rw [ih, keys_dedupeStep]

theorem dedupe_lookup (us : List FieldUpdate) (id : String) :
    lookupU (dedupe us) id = specBestOf (us.filter (fun u => u.fieldId == id)) :=
  foldl_dedupe_lookup us [] id

theorem dedupe_keys (us : List FieldUpdate) :
    (dedupe us).map (fun w => w.fieldId) = firstKeys us :=
  foldl_dedupe_keys us []

theorem foldl_keyStep_nodup (us : List FieldUpdate) :
    ∀ ks : List String, ks.Nodup → (us.foldl keyStep ks).Nodup := by
  induction us with
  | nil => intro ks h; exact h
  | cons u rest ih =>
    intro ks h
    simp only [List.foldl_cons]
    apply ih
    unfold keyStep
    by_cases hm : u.fieldId ∈ ks
    · rw [if_pos hm]; exact h
    · rw [if_neg hm]
      have : (u.fieldId :: ks).Nodup := List.nodup_cons.mpr ⟨hm, h⟩
      exact ((List.perm_append_singleton u.fieldId ks).nodup_iff).mpr this

theorem firstKeys_nodup (us : List FieldUpdate) : (firstKeys us).Nodup :=
  foldl_keyStep_nodup us [] List.nodup_nil

theorem dedupe_ids_distinct (us : List FieldUpdate) :
    (dedupe us).Pairwise (fun a b => a.fieldId ≠ b.fieldId) := by
  have h : ((dedupe us).map (fun w => w.fieldId)).Nodup := by
    rw [dedupe_keys]; exact firstKeys_nodup us
  exact (List.pairwise_map.mp h)

theorem mem_foldl_dedupe (us : List FieldUpdate) :
    ∀ (m : List FieldUpdate) (v : FieldUpdate),
      v ∈ us.foldl dedupeStep m → v ∈ m ∨ v ∈ us := by
  induction us with
  | nil => intro m v h; exact Or.inl h
  | cons u rest ih =>
    intro m v h
    simp only [List.foldl_cons] at h
    rcases ih (dedupeStep m u) v h with h | h
    · rcases mem_dedupeStep h with rfl | h
      · exact Or.inr (List.mem_cons_self _ _)
      · exact Or.inl h
    · exact Or.inr (List.mem_cons_of_mem _ h)

theorem dedupe_subset {v : FieldUpdate} {us : List FieldUpdate}
    (h : v ∈ dedupe us) : v ∈ us := by
  rcases mem_foldl_dedupe us [] v h with h | h
  · cases h
  · exact h

/-! #### Lemmas about `bestStep` folds -/

theorem bestStep_foldl_conf (l : List FieldUpdate) :
    ∀ (acc : Option FieldUpdate) (w : FieldUpdate),
      List.foldl bestStep acc l = some w →
        (∀ v, acc = some v → v.confidence ≤ w.confidence) ∧
        ∀ u ∈ l, u.confidence ≤ w.confidence := by
  induction l with
  | nil =>
    intro acc w h
    refine ⟨?_, by simp⟩
    intro v hv
    rw [hv] at h
    simp only [List.foldl_nil, Option.some.injEq] at h
    exact h ▸ le_refl _
  | cons u rest ih =>
    intro acc w h
    simp only [List.foldl_cons] at h
    obtain ⟨hacc, hrest⟩ := ih (bestStep acc u) w h
    have hu : u.confidence ≤ w.confidence := by
      rcases acc with _ | v
      · exact hacc u rfl
      · by_cases hc : v.confidence < u.confidence
        · exact hacc u (by simp [bestStep, hc])
        · exact le_trans (le_of_not_lt hc) (hacc v (by simp [bestStep, hc]))
    refine ⟨?_, ?_⟩
    · intro v hv
      subst hv
      by_cases hc : v.confidence < u.confidence
      · exact le_trans (le_of_lt hc) hu
      · exact hacc v (by simp [bestStep, hc])
    · intro x hx
      rcases List.mem_cons.mp hx with rfl | hx
      · exact hu
      · exact hrest x hx

theorem bestStep_foldl_mem (l : List FieldUpdate) :
    ∀ (acc : Option FieldUpdate) (w : FieldUpdate),
      List.foldl bestStep acc l = some w → acc = some w ∨ w ∈ l := by
  induction l with
  | nil => intro acc w h; exact Or.inl h
  | cons u rest ih =>
    intro acc w h
    simp only [List.foldl_cons] at h
    rcases ih (bestStep acc u) w h with h | h
    · rcases acc with _ | v
      · simp only [bestStep, Option.some.injEq] at h
        exact Or.inr (List.mem_cons.mpr (Or.inl h.symm))
      · by_cases hc : v.confidence < u.confidence
        · simp only [bestStep, if_pos hc, Option.some.injEq] at h
          exact Or.inr (List.mem_cons.mpr (Or.inl h.symm))
        · simp only [bestStep, if_neg hc] at h
          exact Or.inl h
    · exact Or.inr (List.mem_cons_of_mem _ h)

theorem specBestOf_conf_ge {l : List FieldUpdate} {w : FieldUpdate}
    (h : specBestOf l = some w) : ∀ u ∈ l, u.confidence ≤ w.confidence :=
  (bestStep_foldl_conf l none w h).2

theorem specBestOf_mem {l : List FieldUpdate} {w : FieldUpdate}
    (h : specBestOf l = some w) : w ∈ l := by
  rcases bestStep_foldl_mem l none w h with h | h
  · cases h
  · exact h

/-! #### Idempotence of the dedupe -/

theorem foldl_dedupe_fixed (l : List FieldUpdate) :
    ∀ m : List FieldUpdate,
      (∀ u ∈ l, lookupU m u.fieldId = none) →
      l.Pairwise (fun a b => a.fieldId ≠ b.fieldId) →
      l.foldl dedupeStep m = m ++ l := by
  induction l with
  | nil => intro m _ _; simp
  | cons u rest ih =>
    intro m hnone hpw
    have hu : lookupU m u.fieldId = none := hnone u (List.mem_cons_self _ _)
    simp only [List.foldl_cons, dedupeStep_of_none hu]
    rw [ih (m ++ [u]) ?_ (List.pairwise_cons.mp hpw).2]
    · simp
    · intro v hv
      rw [lookupU_append_one]
      have h1 : lookupU m v.fieldId = none := hnone v (List.mem_cons_of_mem _ hv)
      have h2 : u.fieldId ≠ v.fieldId := (List.pairwise_cons.mp hpw).1 v hv
      rw [h1]
      simp [h2]

theorem dedupe_of_distinct {l : List FieldUpdate}
    (h : l.Pairwise (fun a b => a.fieldId ≠ b.fieldId)) : dedupe l = l := by
  unfold dedupe
  rw [foldl_dedupe_fixed l [] (fun u _ => rfl) h]
  simp

/-! ### Character classes and regex-like matchers

JS `RegExp` semantics (leftmost match, greedy quantifiers with
backtracking) are implemented directly for the concrete patterns of
parser.ts. Characters are UTF-16 code units in JS; all inputs here are
ASCII, so `Char` is used directly. -/

/-- JS `\s` restricted to the ASCII whitespace characters. -/
def jsSpaceChar (c : Char) : Bool :=
  c = ' ' || c = '\t' || c = '\n' || c = '\r' || c = '\x0b' || c = '\x0c'

/-- JS `\w` = `[A-Za-z0-9_]`. -/
def isWordChar (c : Char) : Bool := c.isAlphanum || c = '_'

def wordAt (t : List Char) (i : Nat) : Bool :=
  match t.get? i with
  | some c => isWordChar c
  | none => false

/-- JS `\b` at position `i`: a word character on exactly one side. -/
def boundaryAt (t : List Char) (i : Nat) : Bool :=
  match i with
  | 0 => wordAt t 0
  | j+1 => wordAt t j != wordAt t (j+1)

def lowerL (cs : List Char) : List Char := cs.map Char.toLower

/-- Case-insensitive literal prefix match: `matchesCI s pat` holds iff
`pat` (lowercased) is a prefix of `s` (lowercased). -/
def matchesCI : List Char → List Char → Bool
  | _, [] => true
  | [], _ :: _ => false
  | c :: cs, d :: ds => (c.toLower == d.toLower) && matchesCI cs ds

/-- Length of the maximal run of characters satisfying `p`. -/
def runLen (p : Char → Bool) : List Char → Nat
  | [] => 0
  | c :: cs => if p c then runLen p cs + 1 else 0

/-- Largest `j` below the bound with `p j`, if any (backtracking order of a
greedy quantifier). -/
def findMaxBelow (p : Nat → Bool) : Nat → Option Nat
  | 0 => none
  | b+1 => if p b then some b else findMaxBelow p b

def digitAt (t : List Char) (i : Nat) : Bool :=
  match t.get? i with
  | some c => c.isDigit
  | none => false

def sliceL (t : List Char) (a b : Nat) : List Char := (t.drop a).take (b - a)

def sliceS (t : List Char) (a b : Nat) : String := String.mk (sliceL t a b)

/-- `trim()` of JS strings (ASCII whitespace). -/
def trimBoth (cs : List Char) : List Char :=
  ((cs.dropWhile jsSpaceChar).reverse.dropWhile jsSpaceChar).reverse

/-- `w.isPre l` iff `w` is a (case-sensitive) prefix of `l`. -/
def listPre : List Char → List Char → Bool
  | [], _ => true
  | _ :: _, [] => false
  | a :: as, b :: bs => (a == b) && listPre as bs

/-- JS `String.prototype.includes`. -/
def containsSub : List Char → List Char → Bool
  | [], w => listPre w []
  | s@(_ :: r), w => listPre w s || containsSub r w

/-- Split on runs of whitespace, dropping empty pieces — the composition
`cand.split(/\s+/).filter(Boolean)` from the fuzzy option matcher. -/
def splitWsAux : List Char → List Char → List (List Char)
  | [], acc => if acc.isEmpty then [] else [acc.reverse]
  | c :: cs, acc =>
    if jsSpaceChar c then
      if acc.isEmpty then splitWsAux cs [] else acc.reverse :: splitWsAux cs []
    else splitWsAux cs (c :: acc)

def splitWs (cs : List Char) : List (List Char) := splitWsAux cs []

/-! #### Scanning: leftmost match and the `exec` loop -/

def scanFirstAux {α : Type} (f : Nat → Option α) : Nat → Nat → Option (Nat × α)
  | 0, _ => none
  | fuel+1, p =>
    match f p with
    | some r => some (p, r)
    | none => scanFirstAux f fuel (p+1)

/-- Leftmost match: the first position at which the matcher succeeds. -/
def scanFirst {α : Type} (t : List Char) (f : Nat → Option α) : Option (Nat × α) :=
  scanFirstAux f (t.length + 2) 0

def scanAllAux (f : Nat → Option Nat) : Nat → Nat → List (Nat × Nat)
  | 0, _ => []
  | fuel+1, p =>
    match f p with
    | some e => (p, e) :: scanAllAux f fuel (if p < e then e else p+1)
    | none => scanAllAux f fuel (p+1)

/-- The JS `while ((m = re.exec(text)))` loop for a global regex: all
matches left to right, resuming from each match end. -/
def scanAll (t : List Char) (f : Nat → Option Nat) : List (Nat × Nat) :=
  scanAllAux f (t.length + 2) 0

/-! #### The concrete patterns of parser.ts -/

def localChar (c : Char) : Bool :=
  c.isAlphanum || c = '.' || c = '_' || c = '%' || c = '+' || c = '-'

def domChar (c : Char) : Bool := c.isAlphanum || c = '.' || c = '-'

/-- Match of `([a-zA-Z0-9._%+-]+@[a-zA-Z0-9.-]+\.[a-z]{2,})` (flag `i`) at
position `p`: greedy local part, `@`, then the backtracking choice of the
last dot of the greedy domain run that is followed by at least two
letters. Returns the end position. -/
def emailMatchAt (t : List Char) (p : Nat) : Option Nat :=
  let l := runLen localChar (t.drop p)
  if l = 0 then none
  else if t.get? (p + l) == some '@' then
    let q := p + l + 1
    let d := runLen domChar (t.drop q)
    match findMaxBelow (fun j => decide (1 ≤ j) && (t.get? (q + j) == some '.') &&
        decide (2 ≤ runLen Char.isAlpha (t.drop (q + j + 1)))) d with
    | some j => some (q + j + 1 + runLen Char.isAlpha (t.drop (q + j + 1)))
    | none => none
  else none

def phoneChar (c : Char) : Bool :=
  c.isDigit || c = '-' || jsSpaceChar c || c = '(' || c = ')' || c = '.'

/-- Match of `(\+?\d[\d\-\s().]{6,}\d)` at `p`: optional plus, a digit,
then a greedy run of phone characters backtracked to end on a digit with
at least 6 middle characters. Returns the end position. -/
def phoneMatchAt (t : List Char) (p : Nat) : Option Nat :=
  let b := if t.get? p == some '+' then p + 1 else p
  if digitAt t b then
    let base := b + 1
    let len := runLen phoneChar (t.drop base)
    match findMaxBelow (fun k => decide (6 ≤ k) && digitAt t (base + k)) len with
    | some k => some (base + k + 1)
    | none => none
  else none

/-- Greedy count of `,\d{3}` groups starting at `q` (fuel-bounded). -/
def groupRun (t : List Char) : Nat → Nat → Nat
  | _, 0 => 0
  | q, fuel+1 =>
    if (t.get? q == some ',') && digitAt t (q+1) && digitAt t (q+2) && digitAt t (q+3)
    then groupRun t (q+4) fuel + 1
    else 0

/-- The `(?:\.\d+)?\b` tail of the number pattern at position `e`: try the
greedy decimal part first, else just the boundary. -/
def tryTail (t : List Char) (e : Nat) : Option Nat :=
  let withDec : Option Nat :=
    if t.get? e == some '.' then
      let r := runLen Char.isDigit (t.drop (e+1))
      if 1 ≤ r ∧ boundaryAt t (e + 1 + r) then some (e + 1 + r) else none
    else none
  match withDec with
  | some x => some x
  | none => if boundaryAt t e then some e else none

/-- Backtracking over the number of `,\d{3}` groups, greedy first. -/
def tryGroups (t : List Char) (q : Nat) : Nat → Option Nat
  | 0 => tryTail t q
  | g+1 =>
    match tryTail t (q + 4*(g+1)) with
    | some e => some e
    | none => tryGroups t q g

/-- Match of `\b\d{1,3}(?:,\d{3})*(?:\.\d+)?\b` at `p` with full
backtracking over the digit count, group count and optional decimal. -/
def numberMatchAt (t : List Char) (p : Nat) : Option Nat :=
  if boundaryAt t p then
    let dr := runLen Char.isDigit (t.drop p)
    let tryD := fun (d : Nat) =>
      if 1 ≤ d ∧ d ≤ dr then tryGroups t (p + d) (groupRun t (p + d) (t.length + 1))
      else none
    match tryD (min 3 dr) with
    | some e => some e
    | none =>
      match tryD (min 3 dr - 1) with
      | some e => some e
      | none => tryD (min 3 dr - 2)
  else none

/-- Match of `\bP\b` (flag `i`) at `p`, `P` an escaped literal phrase. -/
def wwMatchAt (t : List Char) (pat : List Char) (p : Nat) : Option Nat :=
  if boundaryAt t p && matchesCI (t.drop p) pat && boundaryAt t (p + pat.length)
  then some (p + pat.length) else none

/-- Leftmost whole-word occurrence of a literal phrase. -/
def wwScan (t : List Char) (pat : List Char) : Option (Nat × Nat) :=
  scanFirst t (wwMatchAt t pat)

/-- `tokenPresent` from parser.ts lines 131-134. -/
def tokenPresent (t : List Char) (tok : List Char) : Bool :=
  (wwScan t tok).isSome

/-! #### The key-value pattern `\b(?:P1|…)\b\s*(?:is|:|=|to|as)?\s*([^,;\n.]+)` -/

/-- The capture class `[^,;\n.]`. -/
def capChar (c : Char) : Bool := !(c = ',' || c = ';' || c = '\n' || c = '.')

def copulas : List (List Char) := ["is".data, ":".data, "=".data, "to".data, "as".data]

/-- `\s*([^,;\n.]+)` from `r` with the greedy whitespace run backtracked
from `k2` spaces down to zero; returns (capture start, capture end). -/
def tryCapFrom (t : List Char) (r : Nat) : Nat → Option (Nat × Nat)
  | 0 =>
    let cl := runLen capChar (t.drop r)
    if 1 ≤ cl then some (r, r + cl) else none
  | k2+1 =>
    let cs := r + k2 + 1
    let cl := runLen capChar (t.drop cs)
    if 1 ≤ cl then some (cs, cs + cl) else tryCapFrom t r k2

def capTail (t : List Char) (r : Nat) : Option (Nat × Nat) :=
  tryCapFrom t r (runLen jsSpaceChar (t.drop r))

/-- `(?:is|:|=|to|as)?` at `pos` (alternatives in regex order, then the
empty alternative), each followed by the capture tail. -/
def tryCopAt (t : List Char) (pos : Nat) : Option (Nat × Nat) :=
  match copulas.findSome? (fun cop =>
      if matchesCI (t.drop pos) cop then capTail t (pos + cop.length) else none) with
  | some r => some r
  | none => capTail t pos

/-- Backtracking over the first `\s*` run, greedy first. -/
def tryCopFrom (t : List Char) (q : Nat) : Nat → Option (Nat × Nat)
  | 0 => tryCopAt t q
  | k+1 =>
    match tryCopAt t (q + k + 1) with
    | some r => some r
    | none => tryCopFrom t q k

def kvRest (t : List Char) (q : Nat) : Option (Nat × Nat) :=
  tryCopFrom t q (runLen jsSpaceChar (t.drop q))

/-- Match at `p` of the key-value regex built from the phrase alternation
`pats` (in order, as the source sorts them); returns (capture start, match
end) — `m[0]` is `[p, end)` and `m[1]` is `[capture start, end)`. -/
def kvMatchAt (t : List Char) (pats : List (List Char)) (p : Nat) : Option (Nat × Nat) :=
  if boundaryAt t p then
    pats.findSome? (fun pat =>
      if matchesCI (t.drop p) pat && boundaryAt t (p + pat.length)
      then kvRest t (p + pat.length) else none)
  else none

/-- Leftmost match of the key-value regex: (start, capture start, end). -/
def kvScan (t : List Char) (pats : List (List Char)) : Option (Nat × Nat × Nat) :=
  match scanFirst t (kvMatchAt t pats) with
  | some (p, cs, e) => some (p, cs, e)
  | none => none

/-! #### The `turn\s+LP\s+(on|off)` pattern -/

/-- `(on|off)` at `pos`, alternatives in order; returns value and end. -/
def onAlt (t : List Char) (pos : Nat) : Option (Bool × Nat) :=
  if matchesCI (t.drop pos) ("on".data) then some (true, pos + 2)
  else if matchesCI (t.drop pos) ("off".data) then some (false, pos + 3)
  else none

/-- Second `\s+` (at least one, greedy first) then `(on|off)`. -/
def turnTail (t : List Char) (r : Nat) : Nat → Option (Bool × Nat)
  | 0 => none
  | k+1 =>
    match onAlt t (r + k + 1) with
    | some v => some v
    | none => turnTail t r k

/-- First `\s+` backtracking, then the label, then the tail. -/
def turnLP (t : List Char) (lp : List Char) (q : Nat) : Nat → Option (Bool × Nat)
  | 0 => none
  | k+1 =>
    let pos := q + k + 1
    (if matchesCI (t.drop pos) lp then
      match turnTail t (pos + lp.length) (runLen jsSpaceChar (t.drop (pos + lp.length))) with
      | some v => some v
      | none => turnLP t lp q k
    else turnLP t lp q k)

def turnMatchAt (t : List Char) (lp : List Char) (p : Nat) : Option (Bool × Nat) :=
  if matchesCI (t.drop p) ("turn".data) then
    turnLP t lp (p + 4) (runLen jsSpaceChar (t.drop (p + 4)))
  else none

/-- Leftmost match of the turn-on/off pattern; the parser only uses the
captured boolean. -/
def turnScan (t : List Char) (lp : List Char) : Option Bool :=
  match scanFirst t (turnMatchAt t lp) with
  | some (_, v, _) => some v
  | none => none

/-! #### The clause-separator pattern `\b(?:,|;|\band\b|\n)\b` of the
leftover pass -/

def sepMatchAt (t : List Char) (p : Nat) : Option Nat :=
  match t.get? p with
  | some ',' => if boundaryAt t p && boundaryAt t (p+1) then some (p+1) else none
  | some ';' => if boundaryAt t p && boundaryAt t (p+1) then some (p+1) else none
  | some '\n' => if boundaryAt t p && boundaryAt t (p+1) then some (p+1) else none
  | some _ =>
    -- the split regex carries no `i` flag, so "and" matches case-sensitively
    if boundaryAt t p && listPre ("and".data) (t.drop p) && boundaryAt t (p+3)
    then some (p+3) else none
  | none => none

/-- `leftover.split(/\b(?:,|;|\band\b|\n)\b/)`: cut at every separator
match, left to right. -/
def splitSepAux (t : List Char) : Nat → Nat → Nat → List (List Char)
  | 0, st, _ => [sliceL t st t.length]
  | fuel+1, st, p =>
    if t.length ≤ p then [sliceL t st t.length]
    else
      match sepMatchAt t p with
      | some e => sliceL t st p :: splitSepAux t fuel e e
      | none => splitSepAux t fuel st (p+1)

def splitSep (t : List Char) : List (List Char) :=
  splitSepAux t (t.length + 1) 0 0

/-! ### Value coercion (`parser.ts` lines 79-121) -/

/-- A result of `chrono.parse(text)`: source offset, matched text, and the
ISO string `result.date().toISOString()`. The date parser is an external
collaborator, so its results are supplied as data. -/
structure ChronoResult where
  index : Nat
  ctext : String
  iso : String
deriving DecidableEq, Repr

def natOfDigits (ds : List Char) : Nat :=
  ds.foldl (fun n c => n * 10 + (c.toNat - 48)) 0

def decValue (a b : List Char) : ℚ :=
  (natOfDigits a : ℚ) + (natOfDigits b : ℚ) / ((10 : ℚ) ^ b.length)

/-- JS `Number(s)` on a string containing only `[0-9.\-]` (the shape left
by the strip in the number branch of `coerceValue`): the empty string is
`0`, a decimal literal evaluates, anything else is `NaN` (`none`). -/
def jsNumOfStripped (cs : List Char) : Option ℚ :=
  match cs with
  | [] => some 0
  | _ =>
    let neg := cs.head? == some '-'
    let l := if neg then cs.drop 1 else cs
    let a := l.takeWhile Char.isDigit
    let r1 := l.dropWhile Char.isDigit
    match r1 with
    | [] =>
      if a.isEmpty then none
      else some (if neg then -(decValue a []) else decValue a [])
    | '.' :: r2 =>
      let b := r2.takeWhile Char.isDigit
      let r3 := r2.dropWhile Char.isDigit
      if r3.isEmpty && !(a.isEmpty && b.isEmpty) then
        some (if neg then -(decValue a b) else decValue a b)
      else none
    | _ => none

/-- `coerceValue` from parser.ts. The date/time branch consults chrono on
the trimmed string, supplied as the oracle `chronoOf` (ISO string of the
first parse result, if any); a chrono exception is the `none` case. -/
def coerceValue (field : Field) (raw : List Char)
    (chronoOf : String → Option String) : Option (JValue × ℚ) :=
  let t := trimBoth raw
  if t.isEmpty then none
  else
    match field.type with
    | .number =>
      match jsNumOfStripped (t.filter (fun c => c.isDigit || c = '.' || c = '-')) with
      | some q => some (.n q, (mkRat 90 100))
      | none => none
    | .date | .datetime | .time =>
      match chronoOf (String.mk t) with
      | some iso => some (.s iso, (mkRat 85 100))
      | none => none
    | .email =>
      match scanFirst t (emailMatchAt t) with
      | some (s, e) => some (.s (sliceS t s e), (mkRat 95 100))
      | none => none
    | .phone =>
      match scanFirst t (phoneMatchAt t) with
      | some (s, e) =>
        some (.s (String.mk ((sliceL t s e).filter
          (fun c => !(jsSpaceChar c || c = '-' || c = '(' || c = ')' || c = '.')))), (mkRat 90 100))
      | none => none
    | .checkbox | .radio | .select => none
    | _ => some (.s (String.mk t), (mkRat 60 100))

/-! ### The extraction passes of `parseTranscript` (`parser.ts` 139-397) -/

/-- The mutable pair (`usedSpans`, `updates`) threaded through the passes. -/
structure PState where
  used : List Span
  updates : List FieldUpdate
deriving DecidableEq, Repr

def pushU (st : PState) (u : FieldUpdate) : PState :=
  { st with updates := st.updates ++ [u] }

def markU (st : PState) (sp : Span) : PState :=
  { st with used := st.used ++ [sp] }

def labelHas (f : Field) (s : List Char) : Bool := containsSub (lowerL f.label.data) s

def hasUpdate (updates : List FieldUpdate) (id : String) : Bool :=
  updates.any (fun u => u.fieldId == id)

/-- Email target priority (parser.ts 158-160): type `email`, else a label
containing "email", else the first `text` field. -/
def emailTarget (schema : List Field) : Option Field :=
  (schema.find? (fun f => decide (f.type = FieldType.email))).orElse (fun _ =>
    (schema.find? (fun f => labelHas f ("email".data))).orElse (fun _ =>
      schema.find? (fun f => decide (f.type = FieldType.text))))

/-- Pass 1: the email regex `exec` loop (parser.ts 151-167). -/
def emailPass (schema : List Field) (t : List Char) (st : PState) : PState :=
  (scanAll t (emailMatchAt t)).foldl (fun st m =>
    let sp : Span := ⟨m.1, m.2⟩
    if isSpanFree st.used sp then
      match emailTarget schema with
      | some f => markU (pushU st ⟨f.id, .s (sliceS t m.1 m.2), (mkRat 95 100), "email"⟩) sp
      | none => st
    else st) st

/-- Phone target priority (parser.ts 178-180). -/
def phoneTarget (schema : List Field) : Option Field :=
  (schema.find? (fun f => decide (f.type = FieldType.phone))).orElse (fun _ =>
    (schema.find? (fun f => labelHas f ("phone".data) || labelHas f ("mobile".data))).orElse (fun _ =>
      schema.find? (fun f => decide (f.type = FieldType.text))))

/-- Pass 2: the phone regex `exec` loop (parser.ts 169-187). -/
def phonePass (schema : List Field) (t : List Char) (st : PState) : PState :=
  (scanAll t (phoneMatchAt t)).foldl (fun st m =>
    let raw := trimBoth (sliceL t m.1 m.2)
    if raw.isEmpty then st
    else
      let sp : Span := ⟨m.1, m.1 + raw.length⟩
      if isSpanFree st.used sp then
        match phoneTarget schema with
        | some f =>
          markU (pushU st ⟨f.id, .s (String.mk (raw.filter Char.isDigit)), (mkRat 90 100), "phone"⟩) sp
        | none => st
      else st) st

def dateType (ty : FieldType) : Bool :=
  decide (ty = FieldType.date) || decide (ty = FieldType.datetime) ||
    decide (ty = FieldType.time)

/-- Pass 3: the chrono date/time pass (parser.ts 189-206), over the
supplied chrono results. -/
def chronoPass (schema : List Field) (crs : List ChronoResult) (st : PState) : PState :=
  crs.foldl (fun st cr =>
    let sp : Span := ⟨cr.index, cr.index + cr.ctext.length⟩
    if isSpanFree st.used sp then
      match schema.find? (fun f => dateType f.type && !(hasUpdate st.updates f.id)) with
      | some f => markU (pushU st ⟨f.id, .s cr.iso, (mkRat 85 100), "chrono"⟩) sp
      | none => st
    else st) st

/-! #### Pass 4: option fields (parser.ts 208-268) -/

/-- Stable insertion for descending length order, matching the stable JS
sort with comparator `(a, b) => b.length - a.length`. -/
def insDesc (x : String) : List String → List String
  | [] => [x]
  | y :: ys => if x.length < y.length then y :: insDesc x ys else x :: y :: ys

def sortDescLen : List String → List String
  | [] => []
  | x :: xs => insDesc x (sortDescLen xs)

/-- `[opt.label, ...(opt.synonyms ?? [])].filter(Boolean).sort(longest
first)` (parser.ts 214). -/
def optPhrases (opt : FieldOption) : List String :=
  sortDescLen ((opt.label :: opt.synonyms).filter (fun s => !s.isEmpty))

def isArr : JValue → Bool
  | .arr _ => true
  | _ => false

/-- `updates.find(u => u.fieldId === fid && Array.isArray(u.value))` and
push `oid` into its array, if such an update exists. -/
def pushIntoArr : List FieldUpdate → String → String → Option (List FieldUpdate)
  | [], _, _ => none
  | u :: us, fid, oid =>
    if u.fieldId == fid && isArr u.value then
      some ({ u with value := match u.value with
                              | .arr l => .arr (l ++ [oid])
                              | v => v } :: us)
    else
      match pushIntoArr us fid oid with
      | some us2 => some (u :: us2)
      | none => none

/-- The checkbox accumulate-or-push action (parser.ts 222-226, 253-257),
optionally claiming a span (exact match) or not (fuzzy match). -/
def ckAct (fid oid : String) (conf : ℚ) (ev : String) (st : PState)
    (sp : Option Span) : PState :=
  let st2 :=
    match pushIntoArr st.updates fid oid with
    | some us => { st with updates := us }
    | none => pushU st ⟨fid, .arr [oid], conf, ev⟩
  match sp with
  | some s => markU st2 s
  | none => st2

/-- For a non-checkbox option: the first phrase whose whole-word match has
a free span; a phrase whose match overlaps is skipped (`continue`). -/
def exactFind (t : List Char) (used : List Span) : List String → Option Span
  | [] => none
  | ph :: rest =>
    match wwScan t ph.data with
    | some (s, e) =>
      if isSpanFree used ⟨s, e⟩ then some ⟨s, e⟩
      else exactFind t used rest
    | none => exactFind t used rest

/-- For a checkbox option: every phrase with a free whole-word match
accumulates (the source has no `break` in the checkbox branch). -/
def ckExactPhrases (t : List Char) (fid oid : String) :
    List String → PState → Bool → PState × Bool
  | [], st, m => (st, m)
  | ph :: rest, st, m =>
    match wwScan t ph.data with
    | some (s, e) =>
      if isSpanFree st.used ⟨s, e⟩ then
        ckExactPhrases t fid oid rest
          (ckAct fid oid (mkRat 90 100) "option-exact" st (some ⟨s, e⟩)) true
      else ckExactPhrases t fid oid rest st m
    | none => ckExactPhrases t fid oid rest st m

/-- Strategy 1 (exact phrase) over the options of one field. -/
def optExactLoop (t : List Char) (field : Field) :
    List FieldOption → PState → Bool → PState × Bool
  | [], st, m => (st, m)
  | opt :: rest, st, m =>
    if decide (field.type = FieldType.checkbox) then
      match ckExactPhrases t field.id opt.id (optPhrases opt) st m with
      | (st2, m2) => optExactLoop t field rest st2 m2
    else
      match exactFind t st.used (optPhrases opt) with
      | some sp => (markU (pushU st ⟨field.id, .s opt.id, (mkRat 92 100), "option-exact"⟩) sp, true)
      | none => optExactLoop t field rest st m

/-- `[opt.label, ...synonyms].filter(Boolean)` (unsorted; parser.ts 245). -/
def fuzzyCands (opt : FieldOption) : List String :=
  (opt.label :: opt.synonyms).filter (fun s => !s.isEmpty)

/-- First candidate phrase all of whose lowercase tokens occur as whole
words anywhere in the transcript (parser.ts 247-264). -/
def fuzzyFound (t : List Char) : List String → Bool
  | [] => false
  | cand :: rest =>
    let toks := splitWs (lowerL cand.data)
    if toks.isEmpty then fuzzyFound t rest
    else if toks.all (fun tk => tokenPresent t tk) then true
    else fuzzyFound t rest

/-- Strategy 2 (fuzzy token presence) over the options of one field; no
spans are claimed. -/
def optFuzzyLoop (t : List Char) (field : Field) : List FieldOption → PState → PState
  | [], st => st
  | opt :: rest, st =>
    if fuzzyFound t (fuzzyCands opt) then
      if decide (field.type = FieldType.checkbox) then
        optFuzzyLoop t field rest (ckAct field.id opt.id (mkRat 75 100) "option-fuzzy" st none)
      else pushU st ⟨field.id, .s opt.id, (mkRat 75 100), "option-fuzzy"⟩
    else optFuzzyLoop t field rest st

def optTypes (ty : FieldType) : Bool :=
  decide (ty = FieldType.select) || decide (ty = FieldType.radio) ||
    decide (ty = FieldType.checkbox)

def optionPassField (t : List Char) (st : PState) (field : Field) : PState :=
  if optTypes field.type && !field.options.isEmpty then
    match optExactLoop t field field.options st false with
    | (st2, matched) =>
      if matched then st2 else optFuzzyLoop t field field.options st2
  else st

def optionPass (schema : List Field) (t : List Char) (st : PState) : PState :=
  schema.foldl (optionPassField t) st

/-! #### Pass 5: booleans / switches (parser.ts 270-308) -/

def trueWords : List String :=
  ["yes", "true", "enable", "enabled", "on", "allow", "allowed"]

def falseWords : List String :=
  ["no", "false", "disable", "disabled", "off", "don\x27t", "do not", "not"]

/-- The clause classification of strategy 1 (parser.ts 283-293): substring
keyword tests on the lowercased clause; an update is produced iff either
list triggers, and its value is `isTrue` — so a clause containing both an
affirmative and a negative keyword yields `true`. -/
def classifyClause (vs : List Char) : Option Bool :=
  let isT := trueWords.any (fun w => containsSub vs w.data)
  let isF := falseWords.any (fun w => containsSub vs w.data)
  if isT || isF then some isT else none

/-- `[field.label, ...(field.synonyms ?? [])].filter(Boolean)` sorted
longest first (parser.ts 276). -/
def fieldPhrases (field : Field) : List String :=
  sortDescLen ((field.label :: field.synonyms).filter (fun s => !s.isEmpty))

/-- Strategy 1 of the switch matcher: `label <sep> <clause>`; an occupied
span `break`s out (falling through to strategy 2). -/
def switchS1 (t : List Char) (fid : String) : List String → PState → PState × Bool
  | [], st => (st, false)
  | lp :: rest, st =>
    match kvScan t [lp.data] with
    | some (p, cs, e) =>
      let vs := lowerL (sliceL t cs e)
      if !isSpanFree st.used ⟨p, e⟩ then (st, false)
      else
        match classifyClause vs with
        | some b => (markU (pushU st ⟨fid, .b b, (mkRat 90 100), "label-boolean"⟩) ⟨p, e⟩, true)
        | none => switchS1 t fid rest st
    | none => switchS1 t fid rest st

/-- Strategy 2: `turn <label> on/off`; no span claim, no overlap check. -/
def switchS2 (t : List Char) (fid : String) : List String → PState → PState
  | [], st => st
  | lp :: rest, st =>
    match turnScan t lp.data with
    | some b => pushU st ⟨fid, .b b, (mkRat 90 100), "turn-on-off"⟩
    | none => switchS2 t fid rest st

def switchPass (schema : List Field) (t : List Char) (st : PState) : PState :=
  schema.foldl (fun st field =>
    if decide (field.type = FieldType.switch) then
      match switchS1 t field.id (fieldPhrases field) st with
      | (st2, matched) =>
        if matched then st2 else switchS2 t field.id (fieldPhrases field) st2
    else st) st

/-! #### Pass 6: numbers (parser.ts 310-326) -/

def numValue (cs : List Char) : ℚ :=
  (jsNumOfStripped (cs.filter (fun c => !(c == ',')))).getD 0

def numberPass (schema : List Field) (t : List Char) (st : PState) : PState :=
  (scanAll t (numberMatchAt t)).foldl (fun st m =>
    let sp : Span := ⟨m.1, m.2⟩
    if isSpanFree st.used sp then
      match schema.find? (fun f =>
          decide (f.type = FieldType.number) && !(hasUpdate st.updates f.id)) with
      | some f =>
        markU (pushU st ⟨f.id, .n (numValue (sliceL t m.1 m.2)), (mkRat 90 100), "digits"⟩) sp
      | none => st
    else st) st

/-! #### Pass 7: label key-value mapping (parser.ts 328-368) -/

/-- `[field.label, ...(field.synonyms ?? []), field.id].filter(Boolean)`
sorted longest first (parser.ts 331). -/
def kvPhrases (field : Field) : List String :=
  sortDescLen (((field.label :: field.synonyms) ++ [field.id]).filter (fun s => !s.isEmpty))

/-- One field of the label-kv pass. When coercion fails on an option-typed
field, matching option ids are collected from the captured value; in the
source an option-typed field with an *empty* options array takes the same
`label-kv-text` push as one with no options member, so both are modelled
by the empty list. -/
def labelKvField (t : List Char) (chronoOf : String → Option String)
    (st : PState) (field : Field) : PState :=
  if hasUpdate st.updates field.id then st
  else
    let pats := kvPhrases field
    if pats.isEmpty then st
    else
      match kvScan t (pats.map String.data) with
      | some (p, cs, e) =>
        let rawVal := trimBoth (sliceL t cs e)
        let sp : Span := ⟨p, e⟩
        if !isSpanFree st.used sp then st
        else
          match coerceValue field rawVal chronoOf with
          | some (v, conf) => markU (pushU st ⟨field.id, v, conf, "label-kv"⟩) sp
          | none =>
            if optTypes field.type then
              match (field.options.filter (fun o =>
                  (wwScan rawVal (lowerL o.label.data)).isSome)).map (fun o => o.id) with
              | [] =>
                markU (pushU st ⟨field.id, .s (String.mk rawVal), (mkRat 60 100), "label-kv-text"⟩) sp
              | i :: rest =>
                let v : JValue :=
                  if decide (field.type = FieldType.checkbox) then .arr (i :: rest) else .s i
                markU (pushU st ⟨field.id, v, (mkRat 85 100), "label-kv-option"⟩) sp
            else
              markU (pushU st ⟨field.id, .s (String.mk rawVal), (mkRat 60 100), "label-kv-text"⟩) sp
      | none => st

def labelKvPass (schema : List Field) (t : List Char)
    (chronoOf : String → Option String) (st : PState) : PState :=
  schema.foldl (labelKvField t chronoOf) st

/-! #### Pass 8: leftover clause assignment (parser.ts 370-397) -/

def joinSpace : List (List Char) → List Char
  | [] => []
  | p :: ps => ps.foldl (fun acc q => acc ++ (' ' :: q)) p

/-- The unclaimed text: complement of the merged used spans, fragments
joined by single spaces, trimmed (parser.ts 371-384). -/
def leftoverOf (t : List Char) (used : List Span) : List Char :=
  if used.isEmpty then trimBoth t
  else
    let merged := mergeSpans used
    let fold := merged.foldl
      (fun (acc : Nat × List (List Char)) s =>
        (max acc.1 s.«end»,
         if acc.1 < s.start then acc.2 ++ [sliceL t acc.1 s.start] else acc.2))
      (0, [])
    let parts := if fold.1 < t.length then fold.2 ++ [t.drop fold.1] else fold.2
    trimBoth (joinSpace parts)

def clausesOf (leftover : List Char) : List (List Char) :=
  ((splitSep leftover).map trimBoth).filter (fun c => !c.isEmpty)

/-- Assign clauses to the empty text fields in order; clauses shorter than
two characters are skipped without consuming a field (parser.ts 389-396). -/
def assignClauses : List (List Char) → List Field → PState → PState
  | [], _, st => st
  | _, [], st => st
  | cl :: cls, f :: frest, st =>
    if cl.length < 2 then assignClauses cls (f :: frest) st
    else assignClauses cls frest
      (pushU st ⟨f.id, .s (String.mk cl), (mkRat 55 100), "fallback-clause"⟩)

def leftoverPass (schema : List Field) (t : List Char) (st : PState) : PState :=
  let leftover := leftoverOf t st.used
  if leftover.isEmpty then st
  else
    assignClauses (clausesOf leftover)
      (schema.filter (fun f =>
        decide (f.type = FieldType.text) && !(hasUpdate st.updates f.id))) st

/-! #### The full parser (`parseTranscript`, parser.ts 139-408) -/

structure PResult where
  updates : List FieldUpdate
  mergedUsed : List Span
deriving DecidableEq, Repr

/-- The eight passes in source order, before the final dedupe. -/
def rawPipeline (schema : List Field) (t : List Char) (crs : List ChronoResult)
    (chronoOf : String → Option String) : PState :=
  leftoverPass schema t
    (labelKvPass schema t chronoOf
      (numberPass schema t
        (switchPass schema t
          (optionPass schema t
            (chronoPass schema crs
              (phonePass schema t
                (emailPass schema t ⟨[], []⟩)))))))

/-- `parseTranscript`: run the passes, dedupe, and return the updates with
the merged used spans of the debug output. `crs` are the results of
`chrono.parse` on the transcript and `chronoOf` is the chrono oracle used
by `coerceValue` inside the label-kv pass. -/
def parseTranscript (schema : List Field) (transcript : String)
    (crs : List ChronoResult) (chronoOf : String → Option String) : PResult :=
  let t := transcript.data
  let st := rawPipeline schema t crs chronoOf
  ⟨dedupe st.updates, mergeSpans st.used⟩

/-! ### `escRe` (parser.ts 43-45) and literal patterns -/

/-- The character class of `escRe`: `[-\/\\^$*+?.()|[\]{}]` — every
ECMAScript pattern syntax character plus `/` and `-`. -/
def escMeta (c : Char) : Bool :=
  c = '-' || c = '/' || c = '\\' || c = '^' || c = '$' || c = '*' || c = '+' ||
  c = '?' || c = '.' || c = '(' || c = ')' || c = '|' || c = '[' || c = ']' ||
  c = '\x7b' || c = '\x7d'

/-- `escRe` from parser.ts: `s.replace(/[-\/\\^$*+?.()|[\]{}]/g, "\\$&")`. -/
def escRe : List Char → List Char
  | [] => []
  | c :: cs => if escMeta c then '\\' :: c :: escRe cs else c :: escRe cs

/-- Reads a regex pattern that is a pure literal: `\c` denotes the literal
character `c`, and an unescaped metacharacter means the pattern is not a
pure literal (`none`); a trailing lone backslash is an invalid pattern. -/
def readPat : List Char → Option (List Char)
  | [] => some []
  | c :: rest =>
    if c = '\\' then
      match rest with
      | [] => none
      | d :: rest2 =>
        match readPat rest2 with
        | some l => some (d :: l)
        | none => none
    else if escMeta c then none
    else
      match readPat rest with
      | some l => some (c :: l)
      | none => none

/-! ### Drop lemmas for the date/time and number extractors -/

theorem numberPass_drop (schema : List Field) (t : List Char) (st : PState)
    (h : ∀ f ∈ schema, f.type ≠ FieldType.number) :
    numberPass schema t st = st := by
  unfold numberPass
  have hfind : ∀ ups : List FieldUpdate,
      schema.find? (fun f =>
        decide (f.type = FieldType.number) && !(hasUpdate ups f.id)) = none := by
    intro ups
    apply List.find?_eq_none.mpr
    intro f hf
    simp [h f hf]
  generalize scanAll t (numberMatchAt t) = ms
  induction ms generalizing st with
  | nil => rfl
  | cons m rest ih =>
    simp only [List.foldl_cons]
    have hstep :
        (if isSpanFree st.used ⟨m.1, m.2⟩ then
          match schema.find? (fun f =>
              decide (f.type = FieldType.number) && !(hasUpdate st.updates f.id)) with
          | some f =>
            markU (pushU st ⟨f.id, .n (numValue (sliceL t m.1 m.2)), (mkRat 90 100), "digits"⟩) ⟨m.1, m.2⟩
          | none => st
        else st) = st := by
      rw [hfind st.updates]
      by_cases hfree : isSpanFree st.used ⟨m.1, m.2⟩
      · rw [if_pos hfree]
      · rw [if_neg hfree]
    rw [hstep]
    exact ih st

theorem chronoPass_drop (schema : List Field) (crs : List ChronoResult) (st : PState)
    (h : ∀ f ∈ schema, dateType f.type = false) :
    chronoPass schema crs st = st := by
  unfold chronoPass
  have hfind : ∀ ups : List FieldUpdate,
      schema.find? (fun f => dateType f.type && !(hasUpdate ups f.id)) = none := by
    intro ups
    apply List.find?_eq_none.mpr
    intro f hf
    simp [h f hf]
  induction crs generalizing st with
  | nil => rfl
  | cons cr rest ih =>
    simp only [List.foldl_cons]
    have hstep :
        (if isSpanFree st.used ⟨cr.index, cr.index + cr.ctext.length⟩ then
          match schema.find? (fun f => dateType f.type && !(hasUpdate st.updates f.id)) with
          | some f =>
            markU (pushU st ⟨f.id, .s cr.iso, (mkRat 85 100), "chrono"⟩)
              ⟨cr.index, cr.index + cr.ctext.length⟩
          | none => st
        else st) = st := by
      rw [hfind st.updates]
      by_cases hfree : isSpanFree st.used ⟨cr.index, cr.index + cr.ctext.length⟩
      · rw [if_pos hfree]
      · rw [if_neg hfree]
    rw [hstep]
    exact ih st

/-! ### Concrete example inputs used by the counterexamples -/

/-- Scenario A of the spec: `[{id:name,type:text},{id:email,type:email}]`. -/
def scenAschema : List Field :=
  [⟨"name", "Name", FieldType.text, [], []⟩,
   ⟨"email", "Email", FieldType.email, [], []⟩]

def scenAtext : String := "My name is Alex Doe, email alex@example.com"

/-- A select field whose option label is the digit string "42", ahead of a
number field. -/
def selNumSchema : List Field :=
  [⟨"sz", "Size", FieldType.select, [⟨"o42", "42", []⟩], []⟩,
   ⟨"cnt", "Count", FieldType.number, [], []⟩]

/-- A schema with only a free-text field. -/
def textOnlySchema : List Field := [⟨"nm", "Name", FieldType.text, [], []⟩]

/-- A single switch field. -/
def switchSchema : List Field := [⟨"alerts", "alerts", FieldType.switch, [], []⟩]

/-- Two fields sharing one id: the first gets an exact option match, the
second only a fuzzy one, so the raw candidate list carries both an
`option-exact` and an `option-fuzzy` update for the same field id. -/
def dupIdSchema : List Field :=
  [⟨"x", "A", FieldType.select, [⟨"a", "foo", []⟩], []⟩,
   ⟨"x", "B", FieldType.select, [⟨"b", "bar baz", []⟩], []⟩]

def dupIdText : String := "foo bar qux baz"

/-! ### Claim theorems -/

/-- C1: for every schema and transcript the merged used-span collection in
the debug output of `parseTranscript` contains no two overlapping spans;
and `mergeSpans` on any list of spans yields pairwise-disjoint spans
sorted by start, each input span being contained in some output span. -/
theorem claim_C1 (schema : List Field) (transcript : String)
    (crs : List ChronoResult) (chronoOf : String → Option String) :
    ((parseTranscript schema transcript crs chronoOf).mergedUsed.Pairwise
      (fun a b => spansOverlap a b = false)) ∧
    ∀ spans : List Span,
      (mergeSpans spans).Pairwise (fun a b => spansOverlap a b = false) ∧
      (mergeSpans spans).Pairwise (fun a b => a.start ≤ b.start) ∧
      ∀ s ∈ spans, ∃ o ∈ mergeSpans spans, spanLe s o :=
  ⟨(mergeSpans_spec _).1, fun spans => mergeSpans_spec spans⟩

/-- C2: the dedupe keeps exactly one update per field id — for every id
the fold that keeps the highest confidence and breaks ties towards the
earliest candidate — with output ordered by first appearance of each
field id; hence the final output of `parseTranscript` never contains two
updates with the same field id. -/
theorem claim_C2 (us : List FieldUpdate) :
    ((dedupe us).map (fun u => u.fieldId) = firstKeys us) ∧
    (dedupe us).Pairwise (fun a b => a.fieldId ≠ b.fieldId) ∧
    (∀ id : String, lookupU (dedupe us) id =
      specBestOf (us.filter (fun u => u.fieldId == id))) ∧
    ∀ (schema : List Field) (transcript : String) (crs : List ChronoResult)
        (chronoOf : String → Option String),
      (parseTranscript schema transcript crs chronoOf).updates.Pairwise
        (fun a b => a.fieldId ≠ b.fieldId) :=
  ⟨dedupe_keys us, dedupe_ids_distinct us, dedupe_lookup us,
   fun _ _ _ _ => dedupe_ids_distinct _⟩

/-- C9: the dedupe is idempotent — on a list that is already its own
output it returns the same list, elements and order included. -/
theorem claim_C9 (us : List FieldUpdate) : dedupe (dedupe us) = dedupe us :=
  dedupe_of_distinct (dedupe_ids_distinct us)

/-- C10: every schema-supplied string is escaped by `escRe` before being
compiled into a pattern, and the escaped pattern is a pure literal
denoting exactly the original string — so the matchers treat schema
strings as literal text and pattern compilation cannot fail. -/
theorem claim_C10 (s : List Char) : readPat (escRe s) = some s := by
  induction s with
  | nil => rfl
  | cons c cs ih =>
    by_cases h : escMeta c
    · rw [escRe, if_pos h]
      rw [readPat, if_pos rfl, ih]
    · rw [escRe, if_neg h]
      have hc : ¬(c = '\\') := by
        intro hh
        apply h
        rw [hh]
        decide
      rw [readPat.eq_def]
      simp only [if_neg hc, if_neg (show ¬escMeta c = true from h), ih]

/-! ### Confidence/evidence invariant of the raw candidate list (for C7) -/

/-- Every update the passes ever push satisfies this: confidence within
[0,1], exact option matches at confidence at least 0.9, fuzzy option
matches at exactly 0.75. -/
def confEvOK (u : FieldUpdate) : Prop :=
  (0 ≤ u.confidence ∧ u.confidence ≤ 1) ∧
  (u.evidence = "option-exact" → mkRat 90 100 ≤ u.confidence) ∧
  (u.evidence = "option-fuzzy" → u.confidence = mkRat 75 100)

instance (u : FieldUpdate) : Decidable (confEvOK u) := by
  unfold confEvOK; infer_instance

def updOK (st : PState) : Prop := ∀ u ∈ st.updates, confEvOK u

theorem confEvOK_of (fid : String) (v : JValue) (c : ℚ) (ev : String)
    (h1 : 0 ≤ c ∧ c ≤ 1) (h2 : ev = "option-exact" → mkRat 90 100 ≤ c)
    (h3 : ev = "option-fuzzy" → c = mkRat 75 100) :
    confEvOK ⟨fid, v, c, ev⟩ := ⟨h1, h2, h3⟩

theorem updOK_pushU {st : PState} {u : FieldUpdate}
    (hst : updOK st) (hu : confEvOK u) : updOK (pushU st u) := by
  intro v hv
  simp only [pushU] at hv
  rcases List.mem_append.mp hv with h | h
  · exact hst v h
  · rw [List.mem_singleton] at h
    subst h
    exact hu

theorem updOK_markU_pushU {st : PState} {u : FieldUpdate} {sp : Span}
    (hst : updOK st) (hu : confEvOK u) : updOK (markU (pushU st u) sp) := by
  intro v hv
  exact updOK_pushU hst hu v hv

theorem pushIntoArr_mem {us us2 : List FieldUpdate} {fid oid : String}
    (h : pushIntoArr us fid oid = some us2) :
    ∀ u ∈ us2, ∃ v ∈ us, u.confidence = v.confidence ∧ u.evidence = v.evidence := by
  induction us generalizing us2 with
  | nil => simp [pushIntoArr] at h
  | cons w ws ih =>
    unfold pushIntoArr at h
    by_cases hw : (w.fieldId == fid && isArr w.value) = true
    · rw [if_pos hw] at h
      injection h with h
      subst h
      intro u hu
      rcases List.mem_cons.mp hu with rfl | hu
      · exact ⟨w, List.mem_cons_self _ _, rfl, rfl⟩
      · exact ⟨u, List.mem_cons_of_mem _ hu, rfl, rfl⟩
    · rw [if_neg hw] at h
      rcases hpi : pushIntoArr ws fid oid with _ | us3
      · rw [hpi] at h; cases h
      · rw [hpi] at h
        injection h with h
        subst h
        intro u hu
        rcases List.mem_cons.mp hu with rfl | hu
        · exact ⟨u, List.mem_cons_self _ _, rfl, rfl⟩
        · obtain ⟨v, hv, hc, he⟩ := ih hpi u hu
          exact ⟨v, List.mem_cons_of_mem _ hv, hc, he⟩

theorem updOK_ckAct {fid oid : String} {conf : ℚ} {ev : String} {st : PState}
    {sp : Option Span} (hst : updOK st)
    (hnew : confEvOK ⟨fid, .arr [oid], conf, ev⟩) :
    updOK (ckAct fid oid conf ev st sp) := by
  have hbase : updOK
      (match pushIntoArr st.updates fid oid with
       | some us => { st with updates := us }
       | none => pushU st ⟨fid, .arr [oid], conf, ev⟩) := by
    rcases hpi : pushIntoArr st.updates fid oid with _ | us
    · exact updOK_pushU hst hnew
    · intro u hu
      simp only at hu
      obtain ⟨v, hv, hc, he⟩ := pushIntoArr_mem hpi u hu
      have hvOK := hst v hv
      unfold confEvOK at hvOK ⊢
      rw [hc, he]
      exact hvOK
  unfold ckAct
  rcases sp with _ | s
  · exact hbase
  · intro u hu
    exact hbase u hu

theorem foldl_updOK {β : Type} {body : PState → β → PState}
    (hbody : ∀ st m, updOK st → updOK (body st m)) :
    ∀ (ms : List β) (st : PState), updOK st → updOK (List.foldl body st ms) := by
  intro ms
  induction ms with
  | nil => intro st h; exact h
  | cons m rest ih =>
    intro st h
    exact ih _ (hbody st m h)

theorem emailPass_ok (schema : List Field) (t : List Char) (st : PState)
    (hst : updOK st) : updOK (emailPass schema t st) := by
  unfold emailPass
  refine foldl_updOK ?_ _ st hst
  intro st m h
  dsimp only
  split
  · split
    · exact updOK_markU_pushU h (confEvOK_of _ _ _ _ (by decide) (by decide) (by decide))
    · exact h
  · exact h

theorem phonePass_ok (schema : List Field) (t : List Char) (st : PState)
    (hst : updOK st) : updOK (phonePass schema t st) := by
  unfold phonePass
  refine foldl_updOK ?_ _ st hst
  intro st m h
  dsimp only
  split
  · exact h
  · split
    · split
      · exact updOK_markU_pushU h (confEvOK_of _ _ _ _ (by decide) (by decide) (by decide))
      · exact h
    · exact h

theorem chronoPass_ok (schema : List Field) (crs : List ChronoResult) (st : PState)
    (hst : updOK st) : updOK (chronoPass schema crs st) := by
  unfold chronoPass
  refine foldl_updOK ?_ _ st hst
  intro st cr h
  dsimp only
  split
  · split
    · exact updOK_markU_pushU h (confEvOK_of _ _ _ _ (by decide) (by decide) (by decide))
    · exact h
  · exact h

theorem ckExactPhrases_ok (t : List Char) (fid oid : String)
    (phs : List String) : ∀ (st : PState) (m : Bool), updOK st →
    updOK (ckExactPhrases t fid oid phs st m).1 := by
  induction phs with
  | nil => intro st m h; exact h
  | cons ph rest ih =>
    intro st m h
    unfold ckExactPhrases
    split
    · split
      · exact ih _ _ (updOK_ckAct h (confEvOK_of _ _ _ _ (by decide) (by decide) (by decide)))
      · exact ih _ _ h
    · exact ih _ _ h

theorem optExactLoop_ok (t : List Char) (field : Field)
    (opts : List FieldOption) : ∀ (st : PState) (m : Bool), updOK st →
    updOK (optExactLoop t field opts st m).1 := by
  induction opts with
  | nil => intro st m h; exact h
  | cons opt rest ih =>
    intro st m h
    unfold optExactLoop
    split
    · exact ih _ _ (ckExactPhrases_ok t field.id opt.id (optPhrases opt) st m h)
    · split
      · exact updOK_markU_pushU h (confEvOK_of _ _ _ _ (by decide) (by decide) (by decide))
      · exact ih _ _ h

theorem optFuzzyLoop_ok (t : List Char) (field : Field)
    (opts : List FieldOption) : ∀ st : PState, updOK st →
    updOK (optFuzzyLoop t field opts st) := by
  induction opts with
  | nil => intro st h; exact h
  | cons opt rest ih =>
    intro st h
    unfold optFuzzyLoop
    split
    · split
      · exact ih _ (updOK_ckAct h (confEvOK_of _ _ _ _ (by decide) (by decide) (by decide)))
      · exact updOK_pushU h (confEvOK_of _ _ _ _ (by decide) (by decide) (by decide))
    · exact ih _ h

theorem optionPass_ok (schema : List Field) (t : List Char) (st : PState)
    (hst : updOK st) : updOK (optionPass schema t st) := by
  unfold optionPass
  refine foldl_updOK ?_ _ st hst
  intro st field h
  unfold optionPassField
  split
  · have hex : updOK (optExactLoop t field field.options st false).1 :=
      optExactLoop_ok t field field.options st false h
    rcases hgl : optExactLoop t field field.options st false with ⟨st2, matched⟩
    rw [hgl] at hex
    dsimp only at hex ⊢
    by_cases hm : matched = true
    · rw [if_pos hm]
      exact hex
    · rw [if_neg hm]
      exact optFuzzyLoop_ok t field field.options st2 hex
  · exact h

theorem switchS1_ok (t : List Char) (fid : String) (lps : List String) :
    ∀ st : PState, updOK st → updOK (switchS1 t fid lps st).1 := by
  induction lps with
  | nil => intro st h; exact h
  | cons lp rest ih =>
    intro st h
    unfold switchS1
    split
    · split
      · exact h
      · dsimp only
        split
        · exact updOK_markU_pushU h (confEvOK_of _ _ _ _ (by decide) (by decide) (by decide))
        · exact ih _ h
    · exact ih _ h

theorem switchS2_ok (t : List Char) (fid : String) (lps : List String) :
    ∀ st : PState, updOK st → updOK (switchS2 t fid lps st) := by
  induction lps with
  | nil => intro st h; exact h
  | cons lp rest ih =>
    intro st h
    unfold switchS2
    split
    · exact updOK_pushU h (confEvOK_of _ _ _ _ (by decide) (by decide) (by decide))
    · exact ih _ h

theorem switchPass_ok (schema : List Field) (t : List Char) (st : PState)
    (hst : updOK st) : updOK (switchPass schema t st) := by
  unfold switchPass
  refine foldl_updOK ?_ _ st hst
  intro st field h
  dsimp only
  split
  · have hs1 : updOK (switchS1 t field.id (fieldPhrases field) st).1 :=
      switchS1_ok t field.id (fieldPhrases field) st h
    rcases hgl : switchS1 t field.id (fieldPhrases field) st with ⟨st2, matched⟩
    rw [hgl] at hs1
    dsimp only at hs1 ⊢
    by_cases hm : matched = true
    · rw [if_pos hm]
      exact hs1
    · rw [if_neg hm]
      exact switchS2_ok t field.id (fieldPhrases field) st2 hs1
  · exact h

theorem numberPass_ok (schema : List Field) (t : List Char) (st : PState)
    (hst : updOK st) : updOK (numberPass schema t st) := by
  unfold numberPass
  refine foldl_updOK ?_ _ st hst
  intro st m h
  dsimp only
  split
  · split
    · exact updOK_markU_pushU h (confEvOK_of _ _ _ _ (by decide) (by decide) (by decide))
    · exact h
  · exact h

theorem coerceValue_conf {field : Field} {raw : List Char}
    {chronoOf : String → Option String} {v : JValue} {c : ℚ}
    (h : coerceValue field raw chronoOf = some (v, c)) : 0 ≤ c ∧ c ≤ 1 := by
  unfold coerceValue at h
  by_cases ht : (trimBoth raw).isEmpty = true
  · rw [if_pos ht] at h
    cases h
  · rw [if_neg ht] at h
    cases hft : field.type <;> rw [hft] at h <;>
      first
        | cases h
        | (injection h with h2; injection h2 with h3 h4; subst h4; decide)
        | (split at h <;>
            first
              | cases h
              | (injection h with h2; injection h2 with h3 h4; subst h4; decide)
              | (split at h <;>
                  first
                    | cases h
                    | (injection h with h2; injection h2 with h3 h4; subst h4; decide)))
    all_goals decide

theorem labelKvPass_ok (schema : List Field) (t : List Char)
    (chronoOf : String → Option String) (st : PState)
    (hst : updOK st) : updOK (labelKvPass schema t chronoOf st) := by
  unfold labelKvPass
  refine foldl_updOK ?_ _ st hst
  intro st field h
  unfold labelKvField
  split
  · exact h
  · dsimp only
    split
    · exact h
    · split
      · split
        · exact h
        · split
          · rename_i v c heq
            exact updOK_markU_pushU h
              (confEvOK_of _ _ _ _ (coerceValue_conf heq)
                (fun hev => absurd hev (by decide)) (fun hev => absurd hev (by decide)))
          · split
            · split
              · exact updOK_markU_pushU h
                  (confEvOK_of _ _ _ _ (by decide) (by decide) (by decide))
              · exact updOK_markU_pushU h
                  (confEvOK_of _ _ _ _ (by decide) (by decide) (by decide))
            · exact updOK_markU_pushU h
                (confEvOK_of _ _ _ _ (by decide) (by decide) (by decide))
      · exact h

theorem assignClauses_ok (cls : List (List Char)) :
    ∀ (fs : List Field) (st : PState), updOK st →
    updOK (assignClauses cls fs st) := by
  induction cls with
  | nil => intro fs st h; cases fs <;> exact h
  | cons cl rest ih =>
    intro fs st h
    rcases fs with _ | ⟨f, frest⟩
    · exact h
    · unfold assignClauses
      split
      · exact ih _ _ h
      · exact ih _ _ (updOK_pushU h (confEvOK_of _ _ _ _ (by decide) (by decide) (by decide)))

theorem leftoverPass_ok (schema : List Field) (t : List Char) (st : PState)
    (hst : updOK st) : updOK (leftoverPass schema t st) := by
  unfold leftoverPass
  dsimp only
  split
  · exact hst
  · exact assignClauses_ok _ _ _ hst

theorem rawPipeline_ok (schema : List Field) (t : List Char)
    (crs : List ChronoResult) (chronoOf : String → Option String) :
    updOK (rawPipeline schema t crs chronoOf) := by
  unfold rawPipeline
  exact leftoverPass_ok _ _ _
    (labelKvPass_ok _ _ _ _
      (numberPass_ok _ _ _
        (switchPass_ok _ _ _
          (optionPass_ok _ _ _
            (chronoPass_ok _ _ _
              (phonePass_ok _ _ _
                (emailPass_ok _ _ _ (fun u hu => absurd hu (List.not_mem_nil u)))))))))

/-- In a list with pairwise-distinct field ids, the lookup of a member's
id returns that member. -/
theorem lookup_of_mem_distinct {l : List FieldUpdate} {u : FieldUpdate}
    (hmem : u ∈ l) (hdist : l.Pairwise (fun a b => a.fieldId ≠ b.fieldId)) :
    lookupU l u.fieldId = some u := by
  induction l with
  | nil => cases hmem
  | cons w ws ih =>
    rcases List.mem_cons.mp hmem with rfl | hmem
    · rw [lookupU_cons, if_pos (by simp)]
    · have hne : w.fieldId ≠ u.fieldId :=
        (List.pairwise_cons.mp hdist).1 u hmem
      rw [lookupU_cons, if_neg (by simpa using hne)]
      exact ih hmem (List.pairwise_cons.mp hdist).2

/-! ### Whitespace-only transcripts (for C8) -/

theorem ws_cases {c : Char} (h : jsSpaceChar c = true) :
    c = ' ' ∨ c = '\t' ∨ c = '\n' ∨ c = '\r' ∨ c = '\x0b' ∨ c = '\x0c' := by
  simp only [jsSpaceChar, Bool.or_eq_true, decide_eq_true_eq] at h
  tauto

theorem ws_not_word {c : Char} (h : jsSpaceChar c = true) : isWordChar c = false := by
  rcases ws_cases h with rfl | rfl | rfl | rfl | rfl | rfl <;> decide

theorem ws_not_local {c : Char} (h : jsSpaceChar c = true) : localChar c = false := by
  rcases ws_cases h with rfl | rfl | rfl | rfl | rfl | rfl <;> decide

theorem ws_not_digit {c : Char} (h : jsSpaceChar c = true) : c.isDigit = false := by
  rcases ws_cases h with rfl | rfl | rfl | rfl | rfl | rfl <;> decide

theorem ws_lower_ne_t {c : Char} (h : jsSpaceChar c = true) :
    (c.toLower == 't') = false := by
  rcases ws_cases h with rfl | rfl | rfl | rfl | rfl | rfl <;> decide

theorem ws_wordAt {t : List Char} (hws : ∀ c ∈ t, jsSpaceChar c = true)
    (i : Nat) : wordAt t i = false := by
  unfold wordAt
  rcases hg : t.get? i with _ | c
  · rfl
  · exact ws_not_word (hws c (List.get?_mem hg))

theorem ws_boundaryAt {t : List Char} (hws : ∀ c ∈ t, jsSpaceChar c = true)
    (i : Nat) : boundaryAt t i = false := by
  unfold boundaryAt
  rcases i with _ | j
  · exact ws_wordAt hws 0
  · show (wordAt t j != wordAt t (j+1)) = false
    rw [ws_wordAt hws j, ws_wordAt hws (j+1)]
    rfl

theorem ws_runLen {t : List Char} {p : Char → Bool}
    (hws : ∀ c ∈ t, jsSpaceChar c = true)
    (hp : ∀ c, jsSpaceChar c = true → p c = false) (i : Nat) :
    runLen p (t.drop i) = 0 := by
  rcases hd : t.drop i with _ | ⟨c, cs⟩
  · rfl
  · have hc : c ∈ t := List.drop_subset i t (hd ▸ List.mem_cons_self c cs)
    rw [runLen, hp c (hws c hc)]
    rfl

theorem ws_digitAt {t : List Char} (hws : ∀ c ∈ t, jsSpaceChar c = true)
    (i : Nat) : digitAt t i = false := by
  unfold digitAt
  rcases hg : t.get? i with _ | c
  · rfl
  · exact ws_not_digit (hws c (List.get?_mem hg))

theorem ws_emailMatchAt {t : List Char} (hws : ∀ c ∈ t, jsSpaceChar c = true)
    (p : Nat) : emailMatchAt t p = none := by
  unfold emailMatchAt
  rw [ws_runLen hws (fun c hc => ws_not_local hc) p]
  rfl

theorem ws_phoneMatchAt {t : List Char} (hws : ∀ c ∈ t, jsSpaceChar c = true)
    (p : Nat) : phoneMatchAt t p = none := by
  unfold phoneMatchAt
  simp only [ws_digitAt hws]
  rfl

theorem ws_numberMatchAt {t : List Char} (hws : ∀ c ∈ t, jsSpaceChar c = true)
    (p : Nat) : numberMatchAt t p = none := by
  unfold numberMatchAt
  rw [ws_boundaryAt hws p]
  rfl

theorem ws_wwMatchAt {t : List Char} (hws : ∀ c ∈ t, jsSpaceChar c = true)
    (pat : List Char) (p : Nat) : wwMatchAt t pat p = none := by
  unfold wwMatchAt
  rw [ws_boundaryAt hws p]
  rfl

theorem ws_kvMatchAt {t : List Char} (hws : ∀ c ∈ t, jsSpaceChar c = true)
    (pats : List (List Char)) (p : Nat) : kvMatchAt t pats p = none := by
  unfold kvMatchAt
  rw [ws_boundaryAt hws p]
  rfl

theorem ws_matchesCI_turn {t : List Char} (hws : ∀ c ∈ t, jsSpaceChar c = true)
    (p : Nat) : matchesCI (t.drop p) (("turn").data) = false := by
  rcases hd : t.drop p with _ | ⟨c, cs⟩
  · rfl
  · have hc : c ∈ t := List.drop_subset p t (hd ▸ List.mem_cons_self c cs)
    show ((c.toLower == 't') && matchesCI cs (("urn").data)) = false
    rw [ws_lower_ne_t (hws c hc)]
    rfl

theorem ws_turnMatchAt {t : List Char} (hws : ∀ c ∈ t, jsSpaceChar c = true)
    (lp : List Char) (p : Nat) : turnMatchAt t lp p = none := by
  unfold turnMatchAt
  rw [ws_matchesCI_turn hws p]
  rfl

theorem scanFirstAux_none {α : Type} {f : Nat → Option α}
    (hf : ∀ p, f p = none) : ∀ fuel p, scanFirstAux f fuel p = none := by
  intro fuel
  induction fuel with
  | zero => intro p; rfl
  | succ n ih =>
    intro p
    unfold scanFirstAux
    rw [hf p]
    exact ih (p+1)

theorem scanAllAux_nil {f : Nat → Option Nat}
    (hf : ∀ p, f p = none) : ∀ fuel p, scanAllAux f fuel p = [] := by
  intro fuel
  induction fuel with
  | zero => intro p; rfl
  | succ n ih =>
    intro p
    unfold scanAllAux
    rw [hf p]
    exact ih (p+1)

theorem ws_wwScan {t : List Char} (hws : ∀ c ∈ t, jsSpaceChar c = true)
    (pat : List Char) : wwScan t pat = none :=
  scanFirstAux_none (ws_wwMatchAt hws pat) _ 0

theorem ws_tokenPresent {t : List Char} (hws : ∀ c ∈ t, jsSpaceChar c = true)
    (tok : List Char) : tokenPresent t tok = false := by
  unfold tokenPresent
  rw [ws_wwScan hws tok]
  rfl

theorem ws_kvScan {t : List Char} (hws : ∀ c ∈ t, jsSpaceChar c = true)
    (pats : List (List Char)) : kvScan t pats = none := by
  unfold kvScan
  rw [show scanFirst t (kvMatchAt t pats) = none from
    scanFirstAux_none (ws_kvMatchAt hws pats) _ 0]

theorem ws_turnScan {t : List Char} (hws : ∀ c ∈ t, jsSpaceChar c = true)
    (lp : List Char) : turnScan t lp = none := by
  unfold turnScan
  rw [show scanFirst t (turnMatchAt t lp) = none from
    scanFirstAux_none (ws_turnMatchAt hws lp) _ 0]

theorem ws_trimBoth {t : List Char} (hws : ∀ c ∈ t, jsSpaceChar c = true) :
    trimBoth t = [] := by
  unfold trimBoth
  rw [List.dropWhile_eq_nil_iff.mpr (fun c hc => hws c hc)]
  rfl

/-! #### The passes are no-ops on whitespace-only text -/

theorem ws_emailPass {t : List Char} (hws : ∀ c ∈ t, jsSpaceChar c = true)
    (schema : List Field) (st : PState) : emailPass schema t st = st := by
  unfold emailPass scanAll
  rw [scanAllAux_nil (ws_emailMatchAt hws) _ 0]
  rfl

theorem ws_phonePass {t : List Char} (hws : ∀ c ∈ t, jsSpaceChar c = true)
    (schema : List Field) (st : PState) : phonePass schema t st = st := by
  unfold phonePass scanAll
  rw [scanAllAux_nil (ws_phoneMatchAt hws) _ 0]
  rfl

theorem ws_numberPass {t : List Char} (hws : ∀ c ∈ t, jsSpaceChar c = true)
    (schema : List Field) (st : PState) : numberPass schema t st = st := by
  unfold numberPass scanAll
  rw [scanAllAux_nil (ws_numberMatchAt hws) _ 0]
  rfl

theorem ws_exactFind {t : List Char} (hws : ∀ c ∈ t, jsSpaceChar c = true)
    (used : List Span) (phs : List String) : exactFind t used phs = none := by
  induction phs with
  | nil => rfl
  | cons ph rest ih =>
    unfold exactFind
    rw [ws_wwScan hws ph.data]
    exact ih

theorem ws_ckExactPhrases {t : List Char} (hws : ∀ c ∈ t, jsSpaceChar c = true)
    (fid oid : String) (phs : List String) (st : PState) (m : Bool) :
    ckExactPhrases t fid oid phs st m = (st, m) := by
  induction phs generalizing st m with
  | nil => rfl
  | cons ph rest ih =>
    unfold ckExactPhrases
    rw [ws_wwScan hws ph.data]
    exact ih st m

theorem ws_optExactLoop {t : List Char} (hws : ∀ c ∈ t, jsSpaceChar c = true)
    (field : Field) (opts : List FieldOption) (st : PState) (m : Bool) :
    optExactLoop t field opts st m = (st, m) := by
  induction opts generalizing st m with
  | nil => rfl
  | cons opt rest ih =>
    unfold optExactLoop
    split
    · rw [ws_ckExactPhrases hws field.id opt.id (optPhrases opt) st m]
      exact ih st m
    · rw [ws_exactFind hws st.used (optPhrases opt)]
      exact ih st m

theorem ws_fuzzyFound {t : List Char} (hws : ∀ c ∈ t, jsSpaceChar c = true)
    (cands : List String) : fuzzyFound t cands = false := by
  induction cands with
  | nil => rfl
  | cons cand rest ih =>
    unfold fuzzyFound
    rcases htoks : splitWs (lowerL cand.data) with _ | ⟨tk, toks⟩
    · simpa using ih
    · have hall : ((tk :: toks).all fun tok => tokenPresent t tok) = false := by
        rw [List.all_cons, ws_tokenPresent hws tk]
        rfl
      simpa [hall] using ih

theorem ws_optFuzzyLoop {t : List Char} (hws : ∀ c ∈ t, jsSpaceChar c = true)
    (field : Field) (opts : List FieldOption) (st : PState) :
    optFuzzyLoop t field opts st = st := by
  induction opts generalizing st with
  | nil => rfl
  | cons opt rest ih =>
    unfold optFuzzyLoop
    rw [ws_fuzzyFound hws (fuzzyCands opt)]
    simpa using ih st

theorem ws_optionPass {t : List Char} (hws : ∀ c ∈ t, jsSpaceChar c = true)
    (schema : List Field) (st : PState) : optionPass schema t st = st := by
  unfold optionPass
  induction schema generalizing st with
  | nil => rfl
  | cons field rest ih =>
    rw [List.foldl_cons]
    have hfield : optionPassField t st field = st := by
      unfold optionPassField
      split
      · rw [ws_optExactLoop hws field field.options st false]
        exact ws_optFuzzyLoop hws field field.options st
      · rfl
    rw [hfield]
    exact ih st

theorem ws_switchS1 {t : List Char} (hws : ∀ c ∈ t, jsSpaceChar c = true)
    (fid : String) (lps : List String) (st : PState) :
    switchS1 t fid lps st = (st, false) := by
  induction lps generalizing st with
  | nil => rfl
  | cons lp rest ih =>
    unfold switchS1
    rw [ws_kvScan hws [lp.data]]
    exact ih st

theorem ws_switchS2 {t : List Char} (hws : ∀ c ∈ t, jsSpaceChar c = true)
    (fid : String) (lps : List String) (st : PState) :
    switchS2 t fid lps st = st := by
  induction lps generalizing st with
  | nil => rfl
  | cons lp rest ih =>
    unfold switchS2
    rw [ws_turnScan hws lp.data]
    exact ih st

theorem ws_switchPass {t : List Char} (hws : ∀ c ∈ t, jsSpaceChar c = true)
    (schema : List Field) (st : PState) : switchPass schema t st = st := by
  unfold switchPass
  induction schema generalizing st with
  | nil => rfl
  | cons field rest ih =>
    rw [List.foldl_cons]
    have hfield :
        (if decide (field.type = FieldType.switch) = true then
          match switchS1 t field.id (fieldPhrases field) st with
          | (st2, matched) =>
            if matched = true then st2
            else switchS2 t field.id (fieldPhrases field) st2
        else st) = st := by
      split
      · rw [ws_switchS1 hws field.id (fieldPhrases field) st]
        exact ws_switchS2 hws field.id (fieldPhrases field) st
      · rfl
    rw [hfield]
    exact ih st

theorem ws_labelKvPass {t : List Char} (hws : ∀ c ∈ t, jsSpaceChar c = true)
    (schema : List Field) (chronoOf : String → Option String) (st : PState) :
    labelKvPass schema t chronoOf st = st := by
  unfold labelKvPass
  induction schema generalizing st with
  | nil => rfl
  | cons field rest ih =>
    rw [List.foldl_cons]
    have hfield : labelKvField t chronoOf st field = st := by
      unfold labelKvField
      split
      · rfl
      · dsimp only
        split
        · rfl
        · rw [ws_kvScan hws ((kvPhrases field).map String.data)]
    rw [hfield]
    exact ih st

theorem ws_leftoverPass_empty {t : List Char} (hws : ∀ c ∈ t, jsSpaceChar c = true)
    (schema : List Field) : leftoverPass schema t ⟨[], []⟩ = ⟨[], []⟩ := by
  unfold leftoverPass
  dsimp only
  rw [show leftoverOf t (⟨[], []⟩ : PState).used = [] from ?_]
  · rfl
  · show trimBoth t = []
    exact ws_trimBoth hws

/-- C8: on an empty or whitespace-only transcript — on which the external
chrono parser returns no results — `parseTranscript` returns an empty
update list (and claims no spans); the embedding is total, so no
exception is possible. -/
theorem claim_C8 (schema : List Field) (transcript : String)
    (chronoOf : String → Option String)
    (hws : ∀ c ∈ transcript.data, jsSpaceChar c = true) :
    (parseTranscript schema transcript [] chronoOf).updates = [] ∧
    (parseTranscript schema transcript [] chronoOf).mergedUsed = [] := by
  have hpipe : rawPipeline schema transcript.data [] chronoOf = ⟨[], []⟩ := by
    unfold rawPipeline
    rw [ws_emailPass hws, ws_phonePass hws]
    rw [show chronoPass schema [] ⟨[], []⟩ = ⟨[], []⟩ from rfl]
    rw [ws_optionPass hws, ws_switchPass hws, ws_numberPass hws, ws_labelKvPass hws]
    exact ws_leftoverPass_empty hws schema
  constructor
  · show dedupe (rawPipeline schema transcript.data [] chronoOf).updates = []
    rw [hpipe]
    rfl
  · show mergeSpans (rawPipeline schema transcript.data [] chronoOf).used = []
    rw [hpipe]
    rfl

/-- C8 witness: the two-space transcript with scenario A's schema. -/
theorem claim_C8_witness :
    (∀ c ∈ ("  ").data, jsSpaceChar c = true) ∧
    (parseTranscript scenAschema "  " [] (fun _ => none)).updates = [] ∧
    (parseTranscript scenAschema "  " [] (fun _ => none)).mergedUsed = [] :=
  ⟨by decide, claim_C8 scenAschema "  " (fun _ => none) (by decide)⟩

/-- C7: every confidence in the output of `parseTranscript` lies in
[0,1]; and an exact option-match candidate always outranks a fuzzy
option-match candidate for the same field id — whenever the raw candidate
list contains both, the deduplicated output entry for that field has
strictly higher confidence than the fuzzy candidate and is never the
fuzzy candidate itself. -/
theorem claim_C7 (schema : List Field) (transcript : String)
    (crs : List ChronoResult) (chronoOf : String → Option String)
    (id : String) (u1 u2 : FieldUpdate)
    (h1 : u1 ∈ (rawPipeline schema transcript.data crs chronoOf).updates)
    (h2 : u2 ∈ (rawPipeline schema transcript.data crs chronoOf).updates)
    (hid1 : u1.fieldId = id) (hid2 : u2.fieldId = id)
    (hev1 : u1.evidence = "option-exact") (hev2 : u2.evidence = "option-fuzzy") :
    (∀ (sch2 : List Field) (tr2 : String) (crs2 : List ChronoResult)
        (co2 : String → Option String),
      ∀ u ∈ (parseTranscript sch2 tr2 crs2 co2).updates,
        0 ≤ u.confidence ∧ u.confidence ≤ 1) ∧
    ∀ w ∈ (parseTranscript schema transcript crs chronoOf).updates,
      w.fieldId = id →
        (u2.confidence < w.confidence ∧ w ≠ u2) ∧
        (((rawPipeline schema transcript.data crs chronoOf).updates.filter
            (fun u => u.fieldId == id) = [u1, u2] ∨
          (rawPipeline schema transcript.data crs chronoOf).updates.filter
            (fun u => u.fieldId == id) = [u2, u1]) → w = u1) := by
  constructor
  · intro sch2 tr2 crs2 co2 u hu
    have hraw : u ∈ (rawPipeline sch2 tr2.data crs2 co2).updates :=
      dedupe_subset hu
    exact (rawPipeline_ok sch2 tr2.data crs2 co2 u hraw).1
  · intro w hw hwid
    have hw2 : w ∈ dedupe (rawPipeline schema transcript.data crs chronoOf).updates := hw
    have hdist := dedupe_ids_distinct (rawPipeline schema transcript.data crs chronoOf).updates
    have hlook := lookup_of_mem_distinct hw2 hdist
    rw [hwid] at hlook
    rw [dedupe_lookup _ id] at hlook
    have h1f : u1 ∈ (rawPipeline schema transcript.data crs chronoOf).updates.filter
        (fun u => u.fieldId == id) :=
      List.mem_filter.mpr ⟨h1, by simp [hid1]⟩
    have hconf1 : u1.confidence ≤ w.confidence := specBestOf_conf_ge hlook u1 h1f
    have hOK := rawPipeline_ok schema transcript.data crs chronoOf
    have hu1c : mkRat 90 100 ≤ u1.confidence := (hOK u1 h1).2.1 hev1
    have hu2c : u2.confidence = mkRat 75 100 := (hOK u2 h2).2.2 hev2
    have h21 : u2.confidence < u1.confidence := by
      rw [hu2c]
      exact lt_of_lt_of_le (by decide) hu1c
    have hlt : u2.confidence < w.confidence := lt_of_lt_of_le h21 hconf1
    refine ⟨⟨hlt, fun hwe => ?_⟩, fun hcase => ?_⟩
    · rw [hwe] at hlt
      exact lt_irrefl _ hlt
    · rcases hcase with hf | hf
      · rw [hf] at hlook
        have hsb : specBestOf [u1, u2] = some u1 := by
          show bestStep (bestStep none u1) u2 = some u1
          simp only [bestStep]
          rw [if_neg (lt_asymm h21)]
        rw [hsb] at hlook
        injection hlook with hlook
        exact hlook.symm
      · rw [hf] at hlook
        have hsb : specBestOf [u2, u1] = some u1 := by
          show bestStep (bestStep none u2) u1 = some u1
          simp only [bestStep]
          rw [if_pos h21]
        rw [hsb] at hlook
        injection hlook with hlook
        exact hlook.symm

/-- C7 witness: a schema with two fields sharing the id "x" puts both an
exact (0.92) and a fuzzy (0.75) option candidate for "x" into the raw
list; the final entry for "x" outranks and differs from the fuzzy one. -/
theorem claim_C7_witness :
    ((⟨"x", JValue.s "a", mkRat 92 100, "option-exact"⟩ : FieldUpdate) ∈
      (rawPipeline dupIdSchema dupIdText.data [] (fun _ => none)).updates) ∧
    ((⟨"x", JValue.s "b", mkRat 75 100, "option-fuzzy"⟩ : FieldUpdate) ∈
      (rawPipeline dupIdSchema dupIdText.data [] (fun _ => none)).updates) ∧
    ((∀ (sch2 : List Field) (tr2 : String) (crs2 : List ChronoResult)
        (co2 : String → Option String),
      ∀ u ∈ (parseTranscript sch2 tr2 crs2 co2).updates,
        0 ≤ u.confidence ∧ u.confidence ≤ 1) ∧
     ∀ w ∈ (parseTranscript dupIdSchema dupIdText [] (fun _ => none)).updates,
       w.fieldId = "x" →
         ((⟨"x", JValue.s "b", mkRat 75 100, "option-fuzzy"⟩ : FieldUpdate).confidence
             < w.confidence ∧
           w ≠ ⟨"x", JValue.s "b", mkRat 75 100, "option-fuzzy"⟩) ∧
         (((rawPipeline dupIdSchema dupIdText.data [] (fun _ => none)).updates.filter
             (fun u => u.fieldId == "x") =
               [⟨"x", JValue.s "a", mkRat 92 100, "option-exact"⟩,
                ⟨"x", JValue.s "b", mkRat 75 100, "option-fuzzy"⟩] ∨
           (rawPipeline dupIdSchema dupIdText.data [] (fun _ => none)).updates.filter
             (fun u => u.fieldId == "x") =
               [⟨"x", JValue.s "b", mkRat 75 100, "option-fuzzy"⟩,
                ⟨"x", JValue.s "a", mkRat 92 100, "option-exact"⟩]) →
           w = ⟨"x", JValue.s "a", mkRat 92 100, "option-exact"⟩)) :=
  ⟨by decide, by decide,
   claim_C7 dupIdSchema dupIdText [] (fun _ => none) "x"
     ⟨"x", JValue.s "a", mkRat 92 100, "option-exact"⟩
     ⟨"x", JValue.s "b", mkRat 75 100, "option-fuzzy"⟩
     (by decide) (by decide) rfl rfl rfl rfl⟩

/-- C3 counterexample: with a select option labelled "42" ahead of a
number field and the transcript "42", the number regex does match the
whole transcript, yet the final output has no update for the number field
`cnt` — the option pass has already claimed the span, which is impossible
under the claimed pass order (numbers before options). -/
theorem claim_C3_counterexample :
    (parseTranscript selNumSchema "42" [] (fun _ => none)).updates =
      [⟨"sz", JValue.s "o42", (mkRat 92 100), "option-exact"⟩] ∧
    scanAll ("42").data (numberMatchAt ("42").data) = [(0, 2)] :=
  ⟨by decide, by decide⟩

/-- C3 amended: the passes run in the order email, phone, date/time,
options, switches, numbers, label-kv, leftover, dedupe — the number pass
comes after the option and switch passes, so those passes can claim a
span before the number pass sees it (as the concrete run shows: after the
option pass the span [0,2) is used and the number pass is a no-op). -/
theorem claim_C3_amended :
    (∀ (schema : List Field) (transcript : String) (crs : List ChronoResult)
        (chronoOf : String → Option String),
      parseTranscript schema transcript crs chronoOf =
        { updates := dedupe
            (leftoverPass schema transcript.data
              (labelKvPass schema transcript.data chronoOf
                (numberPass schema transcript.data
                  (switchPass schema transcript.data
                    (optionPass schema transcript.data
                      (chronoPass schema crs
                        (phonePass schema transcript.data
                          (emailPass schema transcript.data ⟨[], []⟩)))))))).updates,
          mergedUsed := mergeSpans
            (leftoverPass schema transcript.data
              (labelKvPass schema transcript.data chronoOf
                (numberPass schema transcript.data
                  (switchPass schema transcript.data
                    (optionPass schema transcript.data
                      (chronoPass schema crs
                        (phonePass schema transcript.data
                          (emailPass schema transcript.data ⟨[], []⟩)))))))).used }) ∧
    (optionPass selNumSchema ("42").data
      (chronoPass selNumSchema []
        (phonePass selNumSchema ("42").data
          (emailPass selNumSchema ("42").data ⟨[], []⟩)))).used = [⟨0, 2⟩] ∧
    numberPass selNumSchema ("42").data
      (optionPass selNumSchema ("42").data
        (chronoPass selNumSchema []
          (phonePass selNumSchema ("42").data
            (emailPass selNumSchema ("42").data ⟨[], []⟩)))) =
      optionPass selNumSchema ("42").data
        (chronoPass selNumSchema []
          (phonePass selNumSchema ("42").data
            (emailPass selNumSchema ("42").data ⟨[], []⟩))) :=
  ⟨fun _ _ _ _ => rfl, by decide, by decide⟩

/-- C4 counterexample: on the transcript "42" with a schema containing
only a free-text field, the number regex matches and its span is free,
yet the number extractor adds nothing (it has no type-matching field and
no catch-all); the text reaches the free-text field only through the
later leftover-clause pass at confidence 0.55. -/
theorem claim_C4_counterexample :
    scanAll ("42").data (numberMatchAt ("42").data) = [(0, 2)] ∧
    numberPass textOnlySchema ("42").data ⟨[], []⟩ = ⟨[], []⟩ ∧
    (parseTranscript textOnlySchema "42" [] (fun _ => none)).updates =
      [⟨"nm", JValue.s "42", (mkRat 55 100), "fallback-clause"⟩] :=
  ⟨by decide, by decide, by decide⟩

/-- C4 amended: only the email and phone extractors use the three-level
target priority (declared type, then label keyword, then first free-text
field); the date/time and number extractors assign only to a field of the
matching type with no update yet and otherwise drop the match. -/
theorem claim_C4_amended (schema sch2 : List Field) (t : List Char) (st : PState)
    (crs : List ChronoResult)
    (hnum : ∀ f ∈ schema, f.type ≠ FieldType.number)
    (hdate : ∀ f ∈ schema, dateType f.type = false)
    (hem : ∀ f ∈ sch2, f.type ≠ FieldType.email)
    (hlab : ∀ f ∈ sch2, labelHas f ("email").data = false)
    (hph : ∀ f ∈ sch2, f.type ≠ FieldType.phone)
    (hpl : ∀ f ∈ sch2, (labelHas f ("phone").data || labelHas f ("mobile").data) = false) :
    numberPass schema t st = st ∧
    chronoPass schema crs st = st ∧
    emailTarget sch2 = sch2.find? (fun f => decide (f.type = FieldType.text)) ∧
    phoneTarget sch2 = sch2.find? (fun f => decide (f.type = FieldType.text)) := by
  refine ⟨numberPass_drop schema t st hnum, chronoPass_drop schema crs st hdate, ?_, ?_⟩
  · unfold emailTarget
    have h1 : sch2.find? (fun f => decide (f.type = FieldType.email)) = none :=
      List.find?_eq_none.mpr (fun f hf => by simp [hem f hf])
    have h2 : sch2.find? (fun f => labelHas f ("email").data) = none :=
      List.find?_eq_none.mpr (fun f hf => by simp [hlab f hf])
    rw [h1, h2]
    rfl
  · unfold phoneTarget
    have h1 : sch2.find? (fun f => decide (f.type = FieldType.phone)) = none :=
      List.find?_eq_none.mpr (fun f hf => by simp [hph f hf])
    have h2 : sch2.find? (fun f =>
        labelHas f ("phone").data || labelHas f ("mobile").data) = none :=
      List.find?_eq_none.mpr (fun f hf => by simp [hpl f hf])
    rw [h1, h2]
    rfl

/-- C4 witness: the amended statement instantiated on the text-only
schema and the transcript "42". -/
theorem claim_C4_witness :
    ((∀ f ∈ textOnlySchema, f.type ≠ FieldType.number) ∧
     (∀ f ∈ textOnlySchema, dateType f.type = false) ∧
     (∀ f ∈ textOnlySchema, f.type ≠ FieldType.email) ∧
     (∀ f ∈ textOnlySchema, labelHas f ("email").data = false) ∧
     (∀ f ∈ textOnlySchema, f.type ≠ FieldType.phone) ∧
     (∀ f ∈ textOnlySchema,
       (labelHas f ("phone").data || labelHas f ("mobile").data) = false)) ∧
    (numberPass textOnlySchema ("42").data ⟨[], []⟩ = ⟨[], []⟩ ∧
     chronoPass textOnlySchema [] ⟨[], []⟩ = ⟨[], []⟩ ∧
     emailTarget textOnlySchema =
       textOnlySchema.find? (fun f => decide (f.type = FieldType.text)) ∧
     phoneTarget textOnlySchema =
       textOnlySchema.find? (fun f => decide (f.type = FieldType.text))) :=
  ⟨⟨by decide, by decide, by decide, by decide, by decide, by decide⟩,
   claim_C4_amended textOnlySchema textOnlySchema ("42").data ⟨[], []⟩ []
     (by decide) (by decide) (by decide) (by decide) (by decide) (by decide)⟩

/-- C5 counterexample: the clause captured for the switch field "alerts"
in "alerts yes and no" contains both an affirmative keyword ("yes") and a
negative one ("no"), yet strategy 1 does produce an update — with value
`true` and evidence `label-boolean` — instead of treating the field as
unmatched and falling through to the turn-on/off fallback. -/
theorem claim_C5_counterexample :
    containsSub (lowerL ("yes and no").data) ("yes").data = true ∧
    containsSub (lowerL ("yes and no").data) ("no").data = true ∧
    (parseTranscript switchSchema "alerts yes and no" [] (fun _ => none)).updates =
      [⟨"alerts", JValue.b true, (mkRat 90 100), "label-boolean"⟩] :=
  ⟨by decide, by decide, by decide⟩

/-- C5 amended: when both an affirmative and a negative keyword occur in
the captured clause, strategy 1 classifies the clause as `true` (the
affirmative test wins) and produces an update rather than falling
through. -/
theorem claim_C5_amended (vs : List Char)
    (hT : trueWords.any (fun w => containsSub vs w.data) = true)
    (hF : falseWords.any (fun w => containsSub vs w.data) = true) :
    classifyClause vs = some true := by
  unfold classifyClause
  simp [hT]

/-- C5 witness: the amended statement on the clause "yes and no". -/
theorem claim_C5_witness :
    (trueWords.any (fun w => containsSub (lowerL ("yes and no").data) w.data) = true) ∧
    (falseWords.any (fun w => containsSub (lowerL ("yes and no").data) w.data) = true) ∧
    classifyClause (lowerL ("yes and no").data) = some true :=
  ⟨by decide, by decide, claim_C5_amended _ (by decide) (by decide)⟩

/-- C6 counterexample: on scenario A the update for `name` is not sourced
from the leftover-clause pass — there is no update for `name` with
evidence `fallback-clause` nor one with confidence 0.55. -/
theorem claim_C6_counterexample :
    (¬ ∃ u ∈ (parseTranscript scenAschema scenAtext [] (fun _ => none)).updates,
        u.fieldId = "name" ∧ u.evidence = "fallback-clause") ∧
    (¬ ∃ u ∈ (parseTranscript scenAschema scenAtext [] (fun _ => none)).updates,
        u.fieldId = "name" ∧ u.confidence = (mkRat 55 100)) :=
  ⟨by decide, by decide⟩

/-- C6 amended: scenario A yields the email update (value
"alex@example.com", confidence 0.95) and a `name` update produced by the
label/key-value pass with value "Alex Doe" and confidence 0.6 — the
label-kv pass claims "name is Alex Doe" before the leftover pass runs. -/
theorem claim_C6_amended :
    (parseTranscript scenAschema scenAtext [] (fun _ => none)).updates =
      [⟨"email", JValue.s "alex@example.com", (mkRat 95 100), "email"⟩,
       ⟨"name", JValue.s "Alex Doe", (mkRat 60 100), "label-kv"⟩] := by
  decide

end RapSheet
